import Mathlib

/-!
# A fixed-size worker pool (`src/ThreadPool.h`)

`ThreadPool<JobT, WorkerT>` owns a job queue, a vector of worker threads, a
stop flag, a mutex and a condition variable.  The embedding below is an
interleaving model: every block of the source that runs while `queue_mutex` is
held is one atomic step, and the code a worker runs after releasing the mutex
(lines 62-66) is a step of its own.  A schedule is a list of such steps; the
statements quantify over all schedules.

* `condition_variable::wait(lock, pred)` returns only with `pred` true and
  the lock held, so a worker's critical section is enabled exactly when
  `stop || !job_queue.empty()`; `notify_one` / `notify_all` carry no state.
* `worker_fn` is a parameter of the pool.  Its invocation is recorded in the
  log `processed`; it is assumed to return and not to touch the pool.
* `std::thread` is represented by what `worker_loop` is doing and by the
  handle's `joinable()` flag.

* `process` may be called at any time, by any thread; `join` is called by one
  thread at a time.

The fields `join_call`, `submitted`, `removed` and `processed` are history
variables: `join_call` is the position of the caller inside `join`, and no
step reads `submitted`, `removed` or `processed`.
-/

/-- Job types of the pool: `falsy job` is the value of the source's `!job`
(line 62). -/
class JobValue (JobT : Type) where
  falsy : JobT → Bool

/-- Integer jobs: `!job` is `job == 0` (the comment on line 63). -/
instance : JobValue Int where
  falsy job := job == 0

/-- The two ways out of `worker_loop`: the `return` on line 55 and the `break`
on line 63. -/
inductive ExitPath where
  | shutdown
  | sentinel
  deriving DecidableEq

/-- Where a worker stands in `worker_loop`: at the wait on lines 51-52, between
the end of the critical section (line 60) and the call on line 66 with the job
it dequeued, or out of the loop. -/
inductive WorkerState (JobT : Type) where
  | waiting
  | running (job : JobT)
  | terminated (path : ExitPath)
  deriving DecidableEq

/-- One element of `worker_threads`: the state of the thread's `worker_loop`
and `std::thread::joinable()` of its handle. -/
structure WorkerThread (JobT : Type) where
  state : WorkerState JobT
  joinable : Bool
  deriving DecidableEq

/-- Progress of the thread that calls `join()`: no call so far, inside the loop
of lines 41-43 at index `k`, or the outcome of the last call (normal return, or
`std::system_error` thrown by `std::thread::join`). -/
inductive JoinCall where
  | notCalled
  | inLoop (k : Nat)
  | returned
  | threw
  deriving DecidableEq

/-- The pool: `job_queue`, `worker_threads` and `stop` are the members of the
class (lines 13-18); the other fields are history variables: the progress of
`join()`, the arguments of `process` in call order, the dequeued jobs in
removal order with the index of the dequeuing worker, and the arguments of
`worker_fn` in call order with the index of the calling worker. -/
structure ThreadPool (JobT : Type) where
  job_queue : List JobT
  worker_threads : List (WorkerThread JobT)
  stop : Bool
  join_call : JoinCall
  submitted : List JobT
  removed : List (Nat × JobT)
  processed : List (Nat × JobT)
  deriving DecidableEq

/-- The atomic steps of the system. `process job`: a call of `process`
(lines 27-33). `joinStop`: lines 36-40 of `join`. `joinThread`: one pass of the
loop of lines 41-43. `take i`: the critical section of worker `i`
(lines 51-60). `handle i`: lines 62-66 of worker `i`. -/
inductive PoolAction (JobT : Type) where
  | process (job : JobT)
  | joinStop
  | joinThread
  | take (i : Nat)
  | handle (i : Nat)
  deriving DecidableEq

namespace ThreadPool

variable {JobT : Type}

/-- The constructor (lines 21-25): an empty queue, `stop = false` and
`thread_count` threads, each at the top of `worker_loop`. -/
def construct (thread_count : Nat) : ThreadPool JobT :=
  { job_queue := []
    worker_threads := List.replicate thread_count ⟨WorkerState.waiting, true⟩
    stop := false
    join_call := JoinCall.notCalled
    submitted := []
    removed := []
    processed := [] }

/-- The method `process` (lines 27-33): `push_back` under the lock. It has no
guard and returns `void`. -/
def process (p : ThreadPool JobT) (job : JobT) : ThreadPool JobT :=
  { p with job_queue := p.job_queue ++ [job], submitted := p.submitted ++ [job] }

/-- Lines 36-40 of `join`: `stop = true` under the lock, then the loop starts
at the first thread. One thread calls `join` at a time. -/
def join_stop (p : ThreadPool JobT) : Option (ThreadPool JobT) :=
  match p.join_call with
  | JoinCall.inLoop _ => none
  | _ => some { p with stop := true, join_call := JoinCall.inLoop 0 }

/-- One pass of the loop of lines 41-43. Past the last thread `join` returns.
`std::thread::join` throws `std::system_error` when the handle is not
joinable, blocks until the thread has left `worker_loop`, and leaves the
handle not joinable. -/
def join_thread (p : ThreadPool JobT) : Option (ThreadPool JobT) :=
  match p.join_call with
  | JoinCall.inLoop k =>
    match p.worker_threads[k]? with
    | none => some { p with join_call := JoinCall.returned }
    | some t =>
      if !t.joinable then some { p with join_call := JoinCall.threw }
      else
        match t.state with
        | WorkerState.terminated _ =>
          some { p with
            worker_threads := p.worker_threads.set k { t with joinable := false }
            join_call := JoinCall.inLoop (k + 1) }
        | _ => none
  | _ => none

/-- Lines 51-60 of `worker_loop` for worker `i`: blocked while
`stop || !job_queue.empty()` is false; `return` when
`stop && job_queue.empty()`; otherwise `front()` and `pop_front()`. -/
def worker_loop_take (p : ThreadPool JobT) (i : Nat) : Option (ThreadPool JobT) :=
  match p.worker_threads[i]? with
  | none => none
  | some t =>
    match t.state with
    | WorkerState.waiting =>
      if p.stop || !p.job_queue.isEmpty then
        if p.stop && p.job_queue.isEmpty then
          some { p with
            worker_threads :=
              p.worker_threads.set i { t with state := WorkerState.terminated ExitPath.shutdown } }
        else
          match p.job_queue with
          | [] => none
          | job :: rest =>
            some { p with
              job_queue := rest
              worker_threads := p.worker_threads.set i { t with state := WorkerState.running job }
              removed := p.removed ++ [(i, job)] }
      else none
    | _ => none

/-- Lines 62-66 of `worker_loop` for worker `i`: `break` on a falsy job,
otherwise `worker_fn(job)` and back to the top of the loop. -/
def worker_loop_handle [JobValue JobT] (p : ThreadPool JobT) (i : Nat) :
    Option (ThreadPool JobT) :=
  match p.worker_threads[i]? with
  | none => none
  | some t =>
    match t.state with
    | WorkerState.running job =>
      if JobValue.falsy job then
        some { p with
          worker_threads :=
            p.worker_threads.set i { t with state := WorkerState.terminated ExitPath.sentinel } }
      else
        some { p with
          worker_threads := p.worker_threads.set i { t with state := WorkerState.waiting }
          processed := p.processed ++ [(i, job)] }
    | _ => none

/-- One step of the system; `none` when the step is not enabled. -/
def step [JobValue JobT] (p : ThreadPool JobT) : PoolAction JobT → Option (ThreadPool JobT)
  | PoolAction.process job => some (p.process job)
  | PoolAction.joinStop => p.join_stop
  | PoolAction.joinThread => p.join_thread
  | PoolAction.take i => p.worker_loop_take i
  | PoolAction.handle i => p.worker_loop_handle i

/-- A schedule run from `p`; `none` when one of its steps is not enabled. -/
def run [JobValue JobT] (p : ThreadPool JobT) : List (PoolAction JobT) → Option (ThreadPool JobT)
  | [] => some p
  | a :: rest => (p.step a).bind (fun q => q.run rest)

end ThreadPool

/-- The jobs a schedule submits, in call order. -/
def submissions {JobT : Type} : List (PoolAction JobT) → List JobT
  | [] => []
  | PoolAction.process job :: rest => job :: submissions rest
  | _ :: rest => submissions rest

/-- The job a worker holds between dequeuing it and handling it. -/
def held {JobT : Type} : WorkerState JobT → List JobT
  | WorkerState.running job => [job]
  | _ => []

/-- The jobs held by workers between dequeuing and handling, in thread order. -/
def inflight {JobT : Type} : List (WorkerThread JobT) → List JobT
  | [] => []
  | t :: rest => held t.state ++ inflight rest

/-- Whether a worker is leaving, or has left, by the `break` of line 63: it
holds a falsy job or has terminated on one. -/
def sentinelBound {JobT : Type} [JobValue JobT] : WorkerState JobT → Nat
  | WorkerState.running job => if JobValue.falsy job then 1 else 0
  | WorkerState.terminated ExitPath.sentinel => 1
  | _ => 0

/-- The number of workers that hold a falsy job or have terminated on one. -/
def sentinelExits {JobT : Type} [JobValue JobT] (ts : List (WorkerThread JobT)) : Nat :=
  (ts.map (fun t => sentinelBound t.state)).sum

/-- The test `!falsy`, which real jobs pass. -/
def isWork {JobT : Type} [JobValue JobT] (job : JobT) : Bool := !JobValue.falsy job

/-- Every worker has left `worker_loop`. -/
def allTerminated {JobT : Type} (p : ThreadPool JobT) : Prop :=
  ∀ t ∈ p.worker_threads, ∃ path, t.state = WorkerState.terminated path

/-- The arguments `worker_fn` was called with, in call order. -/
def ThreadPool.processedJobs {JobT : Type} (p : ThreadPool JobT) : List JobT :=
  p.processed.map Prod.snd

/-- The dequeued jobs, in removal order. -/
def ThreadPool.removedJobs {JobT : Type} (p : ThreadPool JobT) : List JobT :=
  p.removed.map Prod.snd

/-! ## Invariants and measures -/

/-- The invariants of a pool built with `N` workers. `fifo`: dequeued jobs
followed by the queue are the submitted jobs. `conserved`: the dequeued real
jobs are, as a multiset, the jobs passed to `worker_fn` and the real jobs in
flight. `sentinels`: the workers holding or terminated on a falsy job are as
many as the falsy jobs dequeued. `shutdown_stop`: a worker left by line 55 only
with `stop` set. The last four describe `join`. -/
structure PoolInv {JobT : Type} [JobValue JobT] (N : Nat) (p : ThreadPool JobT) : Prop where
  size : p.worker_threads.length = N
  fifo : p.removedJobs ++ p.job_queue = p.submitted
  conserved : ((p.removedJobs.filter isWork : List JobT) : Multiset JobT) =
    (p.processedJobs : Multiset JobT) +
      (((inflight p.worker_threads).filter isWork : List JobT) : Multiset JobT)
  sentinels : sentinelExits p.worker_threads = (p.removedJobs.filter JobValue.falsy).length
  shutdown_stop : ∀ t ∈ p.worker_threads,
    t.state = WorkerState.terminated ExitPath.shutdown → p.stop = true
  joined_terminated : ∀ t ∈ p.worker_threads, t.joinable = false →
    ∃ path, t.state = WorkerState.terminated path
  called_stop : p.join_call ≠ JoinCall.notCalled → p.stop = true
  loop_joined : ∀ k, p.join_call = JoinCall.inLoop k →
    ∀ i t, i < k → p.worker_threads[i]? = some t → t.joinable = false
  returned_joined : p.join_call = JoinCall.returned →
    ∀ t ∈ p.worker_threads, t.joinable = false

/-- The queue is empty as soon as some worker has left by line 55. It holds
as long as nothing is submitted after `stop` is set. -/
def Drained {JobT : Type} (p : ThreadPool JobT) : Prop :=
  (∃ t ∈ p.worker_threads, t.state = WorkerState.terminated ExitPath.shutdown) →
    p.job_queue = []

/-- The jobs a log attributes to worker `i`, in order. -/
def jobsOf {JobT : Type} (i : Nat) (log : List (Nat × JobT)) : List JobT :=
  (log.filter (fun e => e.1 == i)).map Prod.snd

/-- What the state of a worker says about the jobs it has dequeued (`rem`)
and the jobs it has passed to `worker_fn` (`proc`): it has passed on all it
dequeued, except the job it holds or the falsy job it terminated on. -/
def WorkerLog {JobT : Type} [JobValue JobT] :
    WorkerState JobT → List JobT → List JobT → Prop
  | WorkerState.running job, rem, proc => rem = proc ++ [job]
  | WorkerState.terminated ExitPath.sentinel, rem, proc =>
    ∃ job, JobValue.falsy job = true ∧ rem = proc ++ [job]
  | _, rem, proc => rem = proc

/-- The log of every worker agrees with its state, the logs name existing
workers only, and `worker_fn` is called on real jobs only. -/
def WorkerInv {JobT : Type} [JobValue JobT] (p : ThreadPool JobT) : Prop :=
  (∀ i t, p.worker_threads[i]? = some t →
    WorkerLog t.state (jobsOf i p.removed) (jobsOf i p.processed)) ∧
  (∀ e ∈ p.removed, e.1 < p.worker_threads.length) ∧
  (∀ e ∈ p.processed, JobValue.falsy e.2 = false)

/-- The calls of the client: `process` and the first part of `join`. The
other steps are taken by the workers and by the loop of `join`. -/
def PoolAction.isCall {JobT : Type} : PoolAction JobT → Bool
  | PoolAction.process _ => true
  | PoolAction.joinStop => true
  | _ => false

/-- During the first call of `join`: no `std::system_error` has been thrown
and the handles the loop has not reached are joinable. -/
def FirstJoin {JobT : Type} (p : ThreadPool JobT) : Prop :=
  p.join_call ≠ JoinCall.threw ∧ p.join_call ≠ JoinCall.returned ∧
  (p.join_call = JoinCall.notCalled → ∀ t ∈ p.worker_threads, t.joinable = true) ∧
  (∀ k, p.join_call = JoinCall.inLoop k →
    ∀ i t, k ≤ i → p.worker_threads[i]? = some t → t.joinable = true)

/-- The steps a worker in the given state still has to take before it can
wait again or is out of the loop. -/
def workLeft {JobT : Type} : WorkerState JobT → Nat
  | WorkerState.waiting => 1
  | WorkerState.running _ => 2
  | WorkerState.terminated _ => 0

/-- The passes the loop of `join` still has to make. -/
def joinLeft {JobT : Type} (p : ThreadPool JobT) : Nat :=
  match p.join_call with
  | JoinCall.inLoop k => p.worker_threads.length - k + 1
  | _ => 0

/-- A bound on the steps workers and `join` can take without a new call. -/
def stepsLeft {JobT : Type} (p : ThreadPool JobT) : Nat :=
  3 * p.job_queue.length + (p.worker_threads.map (fun t => workLeft t.state)).sum + joinLeft p

/-- The steps a call can add to `stepsLeft`, the call itself included. -/
def callCost {JobT : Type} (N : Nat) : PoolAction JobT → Nat
  | PoolAction.process _ => 4
  | PoolAction.joinStop => N + 2
  | _ => 0

/-- The jobs a pool with `n` workers left dequeues from a list of queued jobs
when nothing more is submitted: every job up to and including the `n`-th
falsy one, each falsy job retiring the worker that dequeues it (line 63). -/
def servedPrefix {JobT : Type} [JobValue JobT] : Nat → List JobT → List JobT
  | _, [] => []
  | 0, _ :: _ => []
  | n + 1, job :: rest =>
    job :: servedPrefix (if JobValue.falsy job then n else n + 1) rest

/-- The jobs dequeued so far are what `N` workers dequeue first: whatever
comes next in the queue, the workers not yet retired by a falsy job go on
from there. -/
def ServedInv {JobT : Type} [JobValue JobT] (N : Nat) (p : ThreadPool JobT) : Prop :=
  ∀ rest, servedPrefix N (p.removedJobs ++ rest) =
    p.removedJobs ++ servedPrefix (N - (p.removedJobs.filter JobValue.falsy).length) rest

/-! ## The steps, case by case -/

section StepLemmas

variable {JobT : Type}

/-- Case analysis of an enabled step: the nine ways a step can be taken, each
with the state it produces. -/
theorem ThreadPool.step_cases [JobValue JobT] (p : ThreadPool JobT)
    {motive : PoolAction JobT → ThreadPool JobT → Prop}
    (h_process : ∀ job, motive (PoolAction.process job) (p.process job))
    (h_stop : (∀ k, p.join_call ≠ JoinCall.inLoop k) →
      motive PoolAction.joinStop { p with stop := true, join_call := JoinCall.inLoop 0 })
    (h_return : ∀ k, p.join_call = JoinCall.inLoop k → p.worker_threads[k]? = none →
      motive PoolAction.joinThread { p with join_call := JoinCall.returned })
    (h_threw : ∀ k t, p.join_call = JoinCall.inLoop k → p.worker_threads[k]? = some t →
      t.joinable = false →
      motive PoolAction.joinThread { p with join_call := JoinCall.threw })
    (h_joined : ∀ k t path, p.join_call = JoinCall.inLoop k →
      p.worker_threads[k]? = some t → t.joinable = true →
      t.state = WorkerState.terminated path →
      motive PoolAction.joinThread
        { p with
          worker_threads := p.worker_threads.set k ⟨t.state, false⟩
          join_call := JoinCall.inLoop (k + 1) })
    (h_exit : ∀ i t, p.worker_threads[i]? = some t → t.state = WorkerState.waiting →
      p.stop = true → p.job_queue = [] →
      motive (PoolAction.take i)
        { p with
          worker_threads :=
            p.worker_threads.set i ⟨WorkerState.terminated ExitPath.shutdown, t.joinable⟩ })
    (h_dequeue : ∀ i t job rest, p.worker_threads[i]? = some t →
      t.state = WorkerState.waiting → p.job_queue = job :: rest →
      motive (PoolAction.take i)
        { p with
          job_queue := rest
          worker_threads := p.worker_threads.set i ⟨WorkerState.running job, t.joinable⟩
          removed := p.removed ++ [(i, job)] })
    (h_sentinel : ∀ i t job, p.worker_threads[i]? = some t →
      t.state = WorkerState.running job → JobValue.falsy job = true →
      motive (PoolAction.handle i)
        { p with
          worker_threads :=
            p.worker_threads.set i ⟨WorkerState.terminated ExitPath.sentinel, t.joinable⟩ })
    (h_work : ∀ i t job, p.worker_threads[i]? = some t →
      t.state = WorkerState.running job → JobValue.falsy job = false →
      motive (PoolAction.handle i)
        { p with
          worker_threads := p.worker_threads.set i ⟨WorkerState.waiting, t.joinable⟩
          processed := p.processed ++ [(i, job)] })
    (a : PoolAction JobT) (q : ThreadPool JobT) (h : p.step a = some q) : motive a q := by
  cases a with
  | process job =>
    simp only [ThreadPool.step, Option.some.injEq] at h
    subst h
    exact h_process job
  | joinStop =>
    simp only [ThreadPool.step, ThreadPool.join_stop] at h
    split at h
    · simp at h
    · rename_i hne
      simp only [Option.some.injEq] at h
      subst h
      exact h_stop (fun k hk => hne k hk)
  | joinThread =>
    simp only [ThreadPool.step, ThreadPool.join_thread] at h
    split at h
    · rename_i k hk
      split at h
      · rename_i hnone
        simp only [Option.some.injEq] at h
        subst h
        exact h_return k hk hnone
      · rename_i t ht
        split at h
        · rename_i hj
          simp only [Option.some.injEq] at h
          subst h
          exact h_threw k t hk ht (by simpa using hj)
        · rename_i hj
          split at h
          · rename_i path hpath
            simp only [Option.some.injEq] at h
            subst h
            have := h_joined k t path hk ht (by simpa using hj) hpath
            simpa [hpath] using this
          · simp at h
    · simp at h
  | take i =>
    simp only [ThreadPool.step, ThreadPool.worker_loop_take] at h
    split at h
    · simp at h
    · rename_i t ht
      split at h
      · rename_i hw
        split at h
        · split at h
          · rename_i hpred hexit
            simp only [Option.some.injEq] at h
            subst h
            simp only [Bool.and_eq_true, List.isEmpty_iff] at hexit
            exact h_exit i t ht hw hexit.1 hexit.2
          · split at h
            · simp at h
            · rename_i job rest hq
              simp only [Option.some.injEq] at h
              subst h
              exact h_dequeue i t job rest ht hw hq
        · simp at h
      · simp at h
  | handle i =>
    simp only [ThreadPool.step, ThreadPool.worker_loop_handle] at h
    split at h
    · simp at h
    · rename_i t ht
      split at h
      · rename_i job hjob
        split at h
        · rename_i hf
          simp only [Option.some.injEq] at h
          subst h
          exact h_sentinel i t job ht hjob hf
        · rename_i hf
          simp only [Option.some.injEq] at h
          subst h
          exact h_work i t job ht hjob (by simpa using hf)
      · simp at h

end StepLemmas

/-! ## Runs -/

section RunLemmas

variable {JobT : Type}

theorem ThreadPool.run_nil [JobValue JobT] (p : ThreadPool JobT) : p.run [] = some p := rfl

theorem ThreadPool.run_cons [JobValue JobT] (p : ThreadPool JobT) (a : PoolAction JobT)
    (rest : List (PoolAction JobT)) :
    p.run (a :: rest) = (p.step a).bind (fun q => q.run rest) := rfl

theorem ThreadPool.run_append [JobValue JobT]
    (xs ys : List (PoolAction JobT)) (p : ThreadPool JobT) :
    p.run (xs ++ ys) = (p.run xs).bind (fun q => q.run ys) := by
  induction xs generalizing p with
  | nil => simp [ThreadPool.run_nil]
  | cons a rest ih =>
    simp only [List.cons_append, ThreadPool.run_cons]
    cases h : p.step a with
    | none => simp
    | some q => simp [ih]

/-- A run of `xs ++ ys` passes through the state reached after `xs`. -/
theorem ThreadPool.run_append_some [JobValue JobT]
    {xs ys : List (PoolAction JobT)} {p r : ThreadPool JobT}
    (h : p.run (xs ++ ys) = some r) : ∃ q, p.run xs = some q ∧ q.run ys = some r := by
  rw [ThreadPool.run_append] at h
  cases hq : p.run xs with
  | none => simp [hq] at h
  | some q => exact ⟨q, rfl, by simpa [hq] using h⟩

theorem ThreadPool.run_cons_some [JobValue JobT] {a : PoolAction JobT} {ys : List (PoolAction JobT)}
    {p r : ThreadPool JobT} (h : p.run (a :: ys) = some r) :
    ∃ q, p.step a = some q ∧ q.run ys = some r := by
  rw [ThreadPool.run_cons] at h
  cases hq : p.step a with
  | none => simp [hq] at h
  | some q => exact ⟨q, rfl, by simpa [hq] using h⟩

/-- A property kept by every step of a class of actions is kept by every run
made of such actions. -/
theorem ThreadPool.run_preserves [JobValue JobT]
    (A : PoolAction JobT → Prop) (P : ThreadPool JobT → Prop)
    (hstep : ∀ p a q, A a → P p → p.step a = some q → P q) :
    ∀ (acts : List (PoolAction JobT)) (p q : ThreadPool JobT),
      (∀ a ∈ acts, A a) → P p → p.run acts = some q → P q := by
  intro acts
  induction acts with
  | nil =>
    intro p q _ hp h
    simp only [ThreadPool.run_nil, Option.some.injEq] at h
    exact h ▸ hp
  | cons a rest ih =>
    intro p q hA hp h
    obtain ⟨m, hm, hr⟩ := ThreadPool.run_cons_some h
    exact ih m q (fun b hb => hA b (List.mem_cons_of_mem _ hb))
      (hstep p a m (hA a (List.mem_cons_self _ _)) hp hm) hr

end RunLemmas

/-! ## Replacing one thread -/

section SetLemmas

variable {JobT : Type}

theorem inflight_append (xs ys : List (WorkerThread JobT)) :
    inflight (xs ++ ys) = inflight xs ++ inflight ys := by
  induction xs with
  | nil => rfl
  | cons t rest ih => simp [inflight, ih]

/-- Replacing thread `i` changes the in-flight jobs only at that thread. -/
theorem inflight_set {ts : List (WorkerThread JobT)} {i : Nat} {t : WorkerThread JobT}
    (h : ts[i]? = some t) :
    ∃ l₁ l₂, inflight ts = l₁ ++ held t.state ++ l₂ ∧
      ∀ t', inflight (ts.set i t') = l₁ ++ held t'.state ++ l₂ := by
  induction ts generalizing i with
  | nil => simp at h
  | cons u rest ih =>
    cases i with
    | zero =>
      simp only [List.getElem?_cons_zero, Option.some.injEq] at h
      subst h
      exact ⟨[], inflight rest, by simp [inflight], fun t' => by simp [inflight]⟩
    | succ j =>
      simp only [List.getElem?_cons_succ] at h
      obtain ⟨l₁, l₂, h₁, h₂⟩ := ih h
      refine ⟨held u.state ++ l₁, l₂, ?_, fun t' => ?_⟩
      · simp [inflight, h₁]
      · simp [inflight, h₂ t']

/-- Replacing thread `i` changes a sum over the threads only at that thread. -/
theorem sum_map_set (f : WorkerThread JobT → Nat) {ts : List (WorkerThread JobT)} {i : Nat}
    {t : WorkerThread JobT} (h : ts[i]? = some t) (t' : WorkerThread JobT) :
    ((ts.set i t').map f).sum + f t = (ts.map f).sum + f t' := by
  induction ts generalizing i with
  | nil => simp at h
  | cons u rest ih =>
    cases i with
    | zero =>
      simp only [List.getElem?_cons_zero, Option.some.injEq] at h
      subst h
      simp only [List.set_cons_zero, List.map_cons, List.sum_cons]
      omega
    | succ j =>
      simp only [List.getElem?_cons_succ] at h
      have := ih h
      simp only [List.set_cons_succ, List.map_cons, List.sum_cons]
      omega

/-- A thread of the list after a replacement is the new thread or an old one. -/
theorem mem_set_cases {ts : List (WorkerThread JobT)} {i : Nat} {t' u : WorkerThread JobT}
    (h : u ∈ ts.set i t') : u = t' ∨ u ∈ ts := by
  rcases List.mem_or_eq_of_mem_set h with h | h
  · exact Or.inr h
  · exact Or.inl h

theorem mem_of_getElem? {ts : List (WorkerThread JobT)} {i : Nat} {t : WorkerThread JobT}
    (h : ts[i]? = some t) : t ∈ ts :=
  List.mem_iff_getElem?.mpr ⟨i, h⟩

end SetLemmas

/-! ## Invariants of the reachable states -/

section Invariants

variable {JobT : Type}

theorem poolInv_construct [JobValue JobT]
    (N : Nat) : PoolInv N (ThreadPool.construct N : ThreadPool JobT) where
  size := by simp [ThreadPool.construct]
  fifo := by simp [ThreadPool.construct, ThreadPool.removedJobs]
  conserved := by
    have h : inflight
        (List.replicate N (⟨WorkerState.waiting, true⟩ : WorkerThread JobT)) = [] := by
      induction N with
      | zero => rfl
      | succ n ih => simp [List.replicate_succ, inflight, held, ih]
    simp [ThreadPool.construct, ThreadPool.removedJobs, ThreadPool.processedJobs, h]
  sentinels := by
    have h : sentinelExits
        (List.replicate N (⟨WorkerState.waiting, true⟩ : WorkerThread JobT)) = 0 := by
      induction N with
      | zero => rfl
      | succ n ih =>
        simp only [sentinelExits] at ih
        simp [List.replicate_succ, sentinelExits, sentinelBound, ih]
    simp [ThreadPool.construct, ThreadPool.removedJobs, h]
  shutdown_stop := by
    intro t ht hs
    simp only [ThreadPool.construct, List.mem_replicate] at ht
    rw [ht.2] at hs
    cases hs
  joined_terminated := by
    intro t ht hj
    simp only [ThreadPool.construct, List.mem_replicate] at ht
    rw [ht.2] at hj
    cases hj
  called_stop := by simp [ThreadPool.construct]
  loop_joined := by simp [ThreadPool.construct]
  returned_joined := by simp [ThreadPool.construct]

theorem sentinelBound_waiting [JobValue JobT]
    : sentinelBound (WorkerState.waiting : WorkerState JobT) = 0 := rfl

theorem sentinelBound_running [JobValue JobT] (job : JobT) :
    sentinelBound (WorkerState.running job) = if JobValue.falsy job then 1 else 0 := rfl

theorem sentinelBound_shutdown [JobValue JobT] :
    sentinelBound (WorkerState.terminated ExitPath.shutdown : WorkerState JobT) = 0 := rfl

theorem sentinelBound_sentinel [JobValue JobT] :
    sentinelBound (WorkerState.terminated ExitPath.sentinel : WorkerState JobT) = 1 := rfl

/-- The `join` invariants survive a worker step: thread `i`, still in the loop,
moves to state `X` and keeps its handle. -/
theorem join_fields_worker [JobValue JobT]
    {N : Nat} {p q : ThreadPool JobT} (hinv : PoolInv N p) {i : Nat}
    {t : WorkerThread JobT} (ht : p.worker_threads[i]? = some t)
    (hlive : ∀ path, t.state ≠ WorkerState.terminated path) (X : WorkerState JobT)
    (hthreads : q.worker_threads = p.worker_threads.set i ⟨X, t.joinable⟩)
    (hcall : q.join_call = p.join_call) (hstop : q.stop = p.stop) :
    (∀ u ∈ q.worker_threads, u.joinable = false → ∃ path, u.state = WorkerState.terminated path) ∧
    (q.join_call ≠ JoinCall.notCalled → q.stop = true) ∧
    (∀ k, q.join_call = JoinCall.inLoop k →
      ∀ j u, j < k → q.worker_threads[j]? = some u → u.joinable = false) ∧
    (q.join_call = JoinCall.returned → ∀ u ∈ q.worker_threads, u.joinable = false) := by
  have htj : t.joinable = true := by
    cases hj : t.joinable with
    | true => rfl
    | false =>
      obtain ⟨path, hp⟩ := hinv.joined_terminated t (mem_of_getElem? ht) hj
      exact absurd hp (hlive path)
  rw [hthreads, hcall, hstop]
  refine ⟨?_, hinv.called_stop, ?_, ?_⟩
  · intro u hu huj
    rcases mem_set_cases hu with h | h
    · subst h
      simp [htj] at huj
    · exact hinv.joined_terminated u h huj
  · intro k hk j u hjk hu
    rw [List.getElem?_set] at hu
    split at hu
    · rename_i hij
      subst hij
      have := hinv.loop_joined k hk i t hjk ht
      simp [htj] at this
    · exact hinv.loop_joined k hk j u hjk hu
  · intro hr u hu
    have := hinv.returned_joined hr t (mem_of_getElem? ht)
    simp [htj] at this

/-- Every enabled step keeps the invariants. -/
theorem poolInv_step [JobValue JobT] {N : Nat} {p q : ThreadPool JobT} {a : PoolAction JobT}
    (hinv : PoolInv N p) (h : p.step a = some q) : PoolInv N q := by
  have hc := hinv.conserved
  have hs := hinv.sentinels
  have hf := hinv.fifo
  have hsize := hinv.size
  simp only [ThreadPool.removedJobs, ThreadPool.processedJobs] at hc hs hf
  revert h
  refine p.step_cases (motive := fun _ q => PoolInv N q) ?_ ?_ ?_ ?_ ?_ ?_ ?_ ?_ ?_ a q
  · -- process
    intro job
    refine ⟨hinv.size, ?_, hinv.conserved, hinv.sentinels, hinv.shutdown_stop,
      hinv.joined_terminated, hinv.called_stop, hinv.loop_joined, hinv.returned_joined⟩
    all_goals try dsimp only [ThreadPool.removedJobs, ThreadPool.processedJobs]
    have := hf
    simp only [ThreadPool.removedJobs, ThreadPool.processedJobs] at this
    simp only [ThreadPool.process, ThreadPool.removedJobs] at this ⊢
    rw [← List.append_assoc, this]
  · -- join: stop
    intro _
    exact ⟨hinv.size, hinv.fifo, hinv.conserved, hinv.sentinels, fun _ _ _ => rfl,
      hinv.joined_terminated, fun _ => rfl,
      fun k hk i t hik _ => by
        simp only [JoinCall.inLoop.injEq] at hk
        omega,
      fun hr => by simp at hr⟩
  · -- join: past the last thread
    intro k hk hnone
    refine ⟨hinv.size, hinv.fifo, hinv.conserved, hinv.sentinels, hinv.shutdown_stop,
      hinv.joined_terminated, fun _ => hinv.called_stop (by simp [hk]),
      fun k' hk' => by simp at hk', fun _ t ht => ?_⟩
    all_goals try dsimp only [ThreadPool.removedJobs, ThreadPool.processedJobs]
    obtain ⟨i, hi⟩ := List.mem_iff_getElem?.mp ht
    refine hinv.loop_joined k hk i t ?_ hi
    have h₁ : i < p.worker_threads.length := by
      by_contra hcon
      rw [List.getElem?_eq_none (Nat.le_of_not_lt hcon)] at hi
      cases hi
    have h₂ : p.worker_threads.length ≤ k := by
      by_contra hcon
      rw [List.getElem?_eq_getElem (Nat.lt_of_not_le hcon)] at hnone
      cases hnone
    exact Nat.lt_of_lt_of_le h₁ h₂
  · -- join: a handle that is not joinable
    intro k t hk _ _
    exact ⟨hinv.size, hinv.fifo, hinv.conserved, hinv.sentinels, hinv.shutdown_stop,
      hinv.joined_terminated, fun _ => hinv.called_stop (by simp [hk]),
      fun k' hk' => by simp at hk', fun hr => by simp at hr⟩
  · -- join: a terminated thread is joined
    intro k t path hk ht hj hpath
    have hinf := inflight_set ht
    obtain ⟨l₁, l₂, h₁, h₂⟩ := hinf
    have hsum := sum_map_set (fun t => sentinelBound t.state) ht ⟨t.state, false⟩
    refine ⟨?_, hinv.fifo, ?_, ?_, ?_, ?_, fun _ => hinv.called_stop (by simp [hk]), ?_, ?_⟩
    all_goals try dsimp only [ThreadPool.removedJobs, ThreadPool.processedJobs]
    · simpa using hinv.size
    · have := hc
      simp only [h₁] at this
      simp only [h₂, this]
    · have := hs
      simp only [sentinelExits] at this ⊢
      simp only at hsum
      omega
    · intro u hu hs
      rcases mem_set_cases hu with h | h
      · exact hinv.shutdown_stop t (mem_of_getElem? ht) (by rw [h] at hs; exact hs)
      · exact hinv.shutdown_stop u h hs
    · intro u hu huj
      rcases mem_set_cases hu with h | h
      · exact ⟨path, by rw [h]; exact hpath⟩
      · exact hinv.joined_terminated u h huj
    · intro k' hk' j u hjk hu
      simp only [JoinCall.inLoop.injEq] at hk'
      subst hk'
      simp only [List.getElem?_set] at hu
      split at hu
      · split at hu
        · simp only [Option.some.injEq] at hu
          rw [← hu]
        · cases hu
      · exact hinv.loop_joined k hk j u (by omega) hu
    · intro hr
      simp at hr
  · -- worker: leaves by line 55
    intro i t ht hw hstop hq
    obtain ⟨l₁, l₂, h₁, h₂⟩ := inflight_set ht
    have hsum := sum_map_set (fun t => sentinelBound t.state) ht
      ⟨WorkerState.terminated ExitPath.shutdown, t.joinable⟩
    obtain ⟨j₁, j₂, j₃, j₄⟩ := join_fields_worker
      (q := { p with
        worker_threads :=
          p.worker_threads.set i ⟨WorkerState.terminated ExitPath.shutdown, t.joinable⟩ })
      hinv ht (by simp [hw]) (WorkerState.terminated ExitPath.shutdown) rfl rfl rfl
    refine ⟨?_, hinv.fifo, ?_, ?_, ?_, j₁, j₂, j₃, j₄⟩
    all_goals try dsimp only [ThreadPool.removedJobs, ThreadPool.processedJobs]
    · simpa using hinv.size
    · have := hc
      simp only [h₁, hw, held] at this
      simp only [h₂, held, this]
    · have := hs
      simp only [sentinelExits] at this ⊢
      simp only [hw, sentinelBound_waiting, sentinelBound_running, sentinelBound_shutdown] at hsum
      omega
    · intro _ _ _
      exact hstop
  · -- worker: dequeues a job
    intro i t job rest ht hw hq
    obtain ⟨l₁, l₂, h₁, h₂⟩ := inflight_set ht
    have hsum := sum_map_set (fun t => sentinelBound t.state) ht
      ⟨WorkerState.running job, t.joinable⟩
    obtain ⟨j₁, j₂, j₃, j₄⟩ := join_fields_worker
      (q := { p with
        job_queue := rest
        worker_threads := p.worker_threads.set i ⟨WorkerState.running job, t.joinable⟩
        removed := p.removed ++ [(i, job)] })
      hinv ht (by simp [hw]) (WorkerState.running job) rfl rfl rfl
    refine ⟨?_, ?_, ?_, ?_, ?_, j₁, j₂, j₃, j₄⟩
    all_goals try dsimp only [ThreadPool.removedJobs, ThreadPool.processedJobs]
    · simpa using hinv.size
    · have := hf
      simp only [ThreadPool.removedJobs, hq] at this ⊢
      simpa using this
    · have := hc
      simp only [h₁, hw, held, ThreadPool.removedJobs, ThreadPool.processedJobs,
        List.filter_append, ← Multiset.coe_add, List.append_nil] at this
      simp only [h₂, held, ThreadPool.removedJobs, ThreadPool.processedJobs, List.map_append,
        List.map_cons, List.map_nil, List.filter_append, ← Multiset.coe_add, this]
      abel
    · have := hs
      simp only [sentinelExits, ThreadPool.removedJobs] at this ⊢
      simp only [hw, sentinelBound_waiting, sentinelBound_running, sentinelBound_shutdown] at hsum
      simp only [List.map_append, List.map_cons, List.map_nil, List.filter_append,
        List.length_append]
      cases hf : JobValue.falsy job <;> simp [hf, List.filter] at hsum ⊢ <;> omega
    · intro u hu hs
      rcases mem_set_cases hu with h | h
      · rw [h] at hs
        cases hs
      · exact hinv.shutdown_stop u h hs
  · -- worker: breaks on a falsy job
    intro i t job ht hr hf
    obtain ⟨l₁, l₂, h₁, h₂⟩ := inflight_set ht
    have hsum := sum_map_set (fun t => sentinelBound t.state) ht
      ⟨WorkerState.terminated ExitPath.sentinel, t.joinable⟩
    obtain ⟨j₁, j₂, j₃, j₄⟩ := join_fields_worker
      (q := { p with
        worker_threads :=
          p.worker_threads.set i ⟨WorkerState.terminated ExitPath.sentinel, t.joinable⟩ })
      hinv ht (by simp [hr]) (WorkerState.terminated ExitPath.sentinel) rfl rfl rfl
    refine ⟨?_, hinv.fifo, ?_, ?_, ?_, j₁, j₂, j₃, j₄⟩
    all_goals try dsimp only [ThreadPool.removedJobs, ThreadPool.processedJobs]
    · simpa using hinv.size
    · have := hc
      have hw : isWork job = false := by simp [isWork, hf]
      simp only [h₁, hr, held, List.filter_append, ← Multiset.coe_add] at this
      simp only [h₂, held, List.filter_append, ← Multiset.coe_add, this]
      simp [List.filter, hw]
    · have := hs
      simp only [sentinelExits] at this ⊢
      simp only [hr, sentinelBound_running, sentinelBound_sentinel, sentinelBound_waiting, hf] at hsum
      simp only [if_true] at hsum
      omega
    · intro u hu hs
      rcases mem_set_cases hu with h | h
      · rw [h] at hs
        cases hs
      · exact hinv.shutdown_stop u h hs
  · -- worker: calls worker_fn
    intro i t job ht hr hf
    obtain ⟨l₁, l₂, h₁, h₂⟩ := inflight_set ht
    have hsum := sum_map_set (fun t => sentinelBound t.state) ht
      ⟨WorkerState.waiting, t.joinable⟩
    obtain ⟨j₁, j₂, j₃, j₄⟩ := join_fields_worker
      (q := { p with
        worker_threads := p.worker_threads.set i ⟨WorkerState.waiting, t.joinable⟩
        processed := p.processed ++ [(i, job)] })
      hinv ht (by simp [hr]) WorkerState.waiting rfl rfl rfl
    refine ⟨?_, hinv.fifo, ?_, ?_, ?_, j₁, j₂, j₃, j₄⟩
    all_goals try dsimp only [ThreadPool.removedJobs, ThreadPool.processedJobs]
    · simpa using hinv.size
    · have := hc
      have hw : isWork job = true := by simp [isWork, hf]
      simp only [h₁, hr, held, ThreadPool.processedJobs, List.filter_append,
        ← Multiset.coe_add] at this
      simp only [h₂, held, ThreadPool.processedJobs, List.map_append, List.map_cons,
        List.map_nil, List.filter_append, ← Multiset.coe_add, this]
      simp only [List.filter, hw, List.append_nil]
      abel
    · have := hs
      simp only [sentinelExits] at this ⊢
      simp only [hr, sentinelBound_running, sentinelBound_sentinel, sentinelBound_waiting, hf] at hsum
      simp only [Bool.false_eq_true, if_false] at hsum
      omega
    · intro u hu hs
      rcases mem_set_cases hu with h | h
      · rw [h] at hs
        cases hs
      · exact hinv.shutdown_stop u h hs

/-- Every state reached from a pool of `N` workers satisfies the invariants. -/
theorem poolInv_run [JobValue JobT] {N : Nat} {acts : List (PoolAction JobT)} {p : ThreadPool JobT}
    (h : (ThreadPool.construct N : ThreadPool JobT).run acts = some p) : PoolInv N p :=
  ThreadPool.run_preserves (fun _ => True) (PoolInv N)
    (fun _ _ _ _ hp hs => poolInv_step hp hs) acts _ p (fun _ _ => trivial)
    (poolInv_construct N) h

/-- The invariants are kept along any run. -/
theorem poolInv_run_from [JobValue JobT]
    {N : Nat} {acts : List (PoolAction JobT)} {p q : ThreadPool JobT}
    (hinv : PoolInv N p) (h : p.run acts = some q) : PoolInv N q :=
  ThreadPool.run_preserves (fun _ => True) (PoolInv N)
    (fun _ _ _ _ hp hs => poolInv_step hp hs) acts p q (fun _ _ => trivial) hinv h

end Invariants

/-! ## What a step leaves alone -/

section Frame

variable {JobT : Type}

theorem submissions_append (xs ys : List (PoolAction JobT)) :
    submissions (xs ++ ys) = submissions xs ++ submissions ys := by
  induction xs with
  | nil => rfl
  | cons a rest ih => cases a <;> simp [submissions, ih]

/-- The effect of a step on the queue and on the logs of submissions and
removals: `process` appends at the tail, a dequeuing `take` removes the head,
and nothing else touches them. -/
theorem queue_step [JobValue JobT]
    {p q : ThreadPool JobT} {a : PoolAction JobT} (h : p.step a = some q) :
    (∃ job, a = PoolAction.process job ∧ q.job_queue = p.job_queue ++ [job] ∧
        q.removed = p.removed ∧ q.submitted = p.submitted ++ [job]) ∨
    (∃ i job, a = PoolAction.take i ∧ p.job_queue = job :: q.job_queue ∧
        q.removed = p.removed ++ [(i, job)] ∧ q.submitted = p.submitted) ∨
    ((∀ job, a ≠ PoolAction.process job) ∧ q.job_queue = p.job_queue ∧
        q.removed = p.removed ∧ q.submitted = p.submitted) := by
  revert h
  refine p.step_cases
    (motive := fun a q =>
      (∃ job, a = PoolAction.process job ∧ q.job_queue = p.job_queue ++ [job] ∧
          q.removed = p.removed ∧ q.submitted = p.submitted ++ [job]) ∨
      (∃ i job, a = PoolAction.take i ∧ p.job_queue = job :: q.job_queue ∧
          q.removed = p.removed ++ [(i, job)] ∧ q.submitted = p.submitted) ∨
      ((∀ job, a ≠ PoolAction.process job) ∧ q.job_queue = p.job_queue ∧
          q.removed = p.removed ∧ q.submitted = p.submitted))
    ?_ ?_ ?_ ?_ ?_ ?_ ?_ ?_ ?_ a q
  · intro job
    exact Or.inl ⟨job, rfl, rfl, rfl, rfl⟩
  · intro _
    exact Or.inr (Or.inr ⟨(fun _ h => by cases h), rfl, rfl, rfl⟩)
  · intro k _ _
    exact Or.inr (Or.inr ⟨(fun _ h => by cases h), rfl, rfl, rfl⟩)
  · intro k t _ _ _
    exact Or.inr (Or.inr ⟨(fun _ h => by cases h), rfl, rfl, rfl⟩)
  · intro k t path _ _ _ _
    exact Or.inr (Or.inr ⟨(fun _ h => by cases h), rfl, rfl, rfl⟩)
  · intro i t _ _ _ _
    exact Or.inr (Or.inr ⟨(fun _ h => by cases h), rfl, rfl, rfl⟩)
  · intro i t job rest _ _ hq
    exact Or.inr (Or.inl ⟨i, job, rfl, hq, rfl, rfl⟩)
  · intro i t job _ _ _
    exact Or.inr (Or.inr ⟨(fun _ h => by cases h), rfl, rfl, rfl⟩)
  · intro i t job _ _ _
    exact Or.inr (Or.inr ⟨(fun _ h => by cases h), rfl, rfl, rfl⟩)

theorem submitted_step [JobValue JobT]
    {p q : ThreadPool JobT} {a : PoolAction JobT} (h : p.step a = some q) :
    q.submitted = p.submitted ++ submissions [a] := by
  rcases queue_step h with ⟨job, ha, _, _, hs⟩ | ⟨i, job, ha, _, _, hs⟩ | ⟨hne, _, _, hs⟩
  · subst ha
    simpa [submissions] using hs
  · subst ha
    simpa [submissions] using hs
  · cases a with
    | process job => exact absurd rfl (hne job)
    | joinStop => simpa [submissions] using hs
    | joinThread => simpa [submissions] using hs
    | take i => simpa [submissions] using hs
    | handle i => simpa [submissions] using hs

/-- The log of submissions after a run is the log before it followed by the
jobs the schedule submits. -/
theorem submitted_run [JobValue JobT] {acts : List (PoolAction JobT)} {p q : ThreadPool JobT}
    (h : p.run acts = some q) : q.submitted = p.submitted ++ submissions acts := by
  induction acts generalizing p with
  | nil =>
    simp only [ThreadPool.run_nil, Option.some.injEq] at h
    subst h
    simp [submissions]
  | cons a rest ih =>
    obtain ⟨m, hm, hr⟩ := ThreadPool.run_cons_some h
    rw [ih hr, submitted_step hm, List.append_assoc, ← submissions_append]
    rfl

/-- A step of a worker still in the loop does not touch a terminated thread. -/
theorem terminated_other {ts : List (WorkerThread JobT)} {i j : Nat} {t u : WorkerThread JobT}
    {path : ExitPath} (ht : ts[i]? = some t)
    (hlive : ∀ path, t.state ≠ WorkerState.terminated path) (hu : ts[j]? = some u)
    (hs : u.state = WorkerState.terminated path) (t' : WorkerThread JobT) :
    i ≠ j ∧ ∃ u', (ts.set i t')[j]? = some u' ∧ u'.state = WorkerState.terminated path := by
  have hij : i ≠ j := by
    intro hij
    subst hij
    rw [ht] at hu
    simp only [Option.some.injEq] at hu
    subst hu
    exact hlive path hs
  exact ⟨hij, u, by simp [List.getElem?_set, hij, hu], hs⟩

/-- The effect of a step on `stop`, on the number of threads and on a thread
that has left `worker_loop`. -/
theorem stop_step [JobValue JobT]
    {p q : ThreadPool JobT} {a : PoolAction JobT} (h : p.step a = some q) :
    (a ≠ PoolAction.joinStop → q.stop = p.stop) ∧ (p.stop = true → q.stop = true) ∧
    q.worker_threads.length = p.worker_threads.length ∧
    ∀ i t path, p.worker_threads[i]? = some t → t.state = WorkerState.terminated path →
      a ≠ PoolAction.take i ∧ a ≠ PoolAction.handle i ∧
      ∃ t', q.worker_threads[i]? = some t' ∧ t'.state = WorkerState.terminated path := by
  revert h
  refine p.step_cases
    (motive := fun a q =>
      (a ≠ PoolAction.joinStop → q.stop = p.stop) ∧ (p.stop = true → q.stop = true) ∧
      q.worker_threads.length = p.worker_threads.length ∧
      ∀ i t path, p.worker_threads[i]? = some t → t.state = WorkerState.terminated path →
        a ≠ PoolAction.take i ∧ a ≠ PoolAction.handle i ∧
        ∃ t', q.worker_threads[i]? = some t' ∧ t'.state = WorkerState.terminated path)
    ?_ ?_ ?_ ?_ ?_ ?_ ?_ ?_ ?_ a q
  · intro job
    exact ⟨fun _ => rfl, id, rfl, fun i t path ht hs =>
      ⟨(fun h => by cases h), (fun h => by cases h), t, ht, hs⟩⟩
  · intro _
    exact ⟨fun h => absurd rfl h, fun _ => rfl, rfl, fun i t path ht hs =>
      ⟨(fun h => by cases h), (fun h => by cases h), t, ht, hs⟩⟩
  · intro k _ _
    exact ⟨fun _ => rfl, id, rfl, fun i t path ht hs =>
      ⟨(fun h => by cases h), (fun h => by cases h), t, ht, hs⟩⟩
  · intro k t _ _ _
    exact ⟨fun _ => rfl, id, rfl, fun i t path ht hs =>
      ⟨(fun h => by cases h), (fun h => by cases h), t, ht, hs⟩⟩
  · intro k t path _ hk _ hpath
    refine ⟨fun _ => rfl, id, by simp, fun i u upath hu hs =>
      ⟨(fun h => by cases h), (fun h => by cases h), ?_⟩⟩
    by_cases hik : k = i
    · subst hik
      rw [hk] at hu
      simp only [Option.some.injEq] at hu
      subst hu
      have hlt : k < p.worker_threads.length := by
        by_contra hcon
        rw [List.getElem?_eq_none (Nat.le_of_not_lt hcon)] at hk
        cases hk
      exact ⟨⟨t.state, false⟩, by simp [List.getElem?_set, hlt], hs⟩
    · exact ⟨u, by simp [List.getElem?_set, hik, hu], hs⟩
  · intro i t ht hw _ _
    refine ⟨fun _ => rfl, id, by simp, fun j u upath hu hs => ?_⟩
    obtain ⟨hij, hex⟩ := terminated_other ht (by simp [hw]) hu hs _
    exact ⟨by simp [hij], by simp [hij], hex⟩
  · intro i t job rest ht hw _
    refine ⟨fun _ => rfl, id, by simp, fun j u upath hu hs => ?_⟩
    obtain ⟨hij, hex⟩ := terminated_other ht (by simp [hw]) hu hs _
    exact ⟨by simp [hij], by simp [hij], hex⟩
  · intro i t job ht hr _
    refine ⟨fun _ => rfl, id, by simp, fun j u upath hu hs => ?_⟩
    obtain ⟨hij, hex⟩ := terminated_other ht (by simp [hr]) hu hs _
    exact ⟨by simp [hij], by simp [hij], hex⟩
  · intro i t job ht hr _
    refine ⟨fun _ => rfl, id, by simp, fun j u upath hu hs => ?_⟩
    obtain ⟨hij, hex⟩ := terminated_other ht (by simp [hr]) hu hs _
    exact ⟨by simp [hij], by simp [hij], hex⟩

end Frame

/-! ## Properties along runs -/

section Along

variable {JobT : Type}

/-- Along any run: `stop` stays set, the number of threads is fixed, and a
thread that has left `worker_loop` takes no step and stays where it is. -/
theorem absorbing_run [JobValue JobT] {acts : List (PoolAction JobT)} {p q : ThreadPool JobT}
    (h : p.run acts = some q) :
    (p.stop = true → q.stop = true) ∧
    q.worker_threads.length = p.worker_threads.length ∧
    ∀ i t path, p.worker_threads[i]? = some t → t.state = WorkerState.terminated path →
      PoolAction.take i ∉ acts ∧ PoolAction.handle i ∉ acts ∧
      ∃ t', q.worker_threads[i]? = some t' ∧ t'.state = WorkerState.terminated path := by
  induction acts generalizing p with
  | nil =>
    simp only [ThreadPool.run_nil, Option.some.injEq] at h
    subst h
    exact ⟨id, rfl, fun i t path ht hs => ⟨by simp, by simp, t, ht, hs⟩⟩
  | cons a rest ih =>
    obtain ⟨m, hm, hr⟩ := ThreadPool.run_cons_some h
    obtain ⟨_, hstop, hlen, hterm⟩ := stop_step hm
    obtain ⟨hstop', hlen', hterm'⟩ := ih hr
    refine ⟨fun hp => hstop' (hstop hp), by rw [hlen', hlen], fun i t path ht hs => ?_⟩
    obtain ⟨h₁, h₂, t', ht', hs'⟩ := hterm i t path ht hs
    obtain ⟨h₃, h₄, hex⟩ := hterm' i t' path ht' hs'
    refine ⟨?_, ?_, hex⟩
    · simp only [List.mem_cons, not_or]
      exact ⟨fun h => h₁ h.symm, h₃⟩
    · simp only [List.mem_cons, not_or]
      exact ⟨fun h => h₂ h.symm, h₄⟩

end Along

/-! ## The claims -/

section Claims

variable {JobT : Type}

/-- C3 (FIFO queue invariant). In every state reached from a pool of `N`
workers, the jobs removed so far, in removal order, followed by the queue are
the jobs submitted so far, in submission order; and every further step either
appends the submitted job at the tail (`process`), removes the head (a
dequeuing `take`), or leaves queue and logs alone, keeping the same equation. -/
theorem fifo_queue_invariant [JobValue JobT]
    (N : Nat) (acts : List (PoolAction JobT)) (p : ThreadPool JobT)
    (h : (ThreadPool.construct N : ThreadPool JobT).run acts = some p) :
    p.removedJobs ++ p.job_queue = submissions acts ∧
    p.submitted = submissions acts ∧
    ∀ a q, p.step a = some q →
      q.removedJobs ++ q.job_queue = q.submitted ∧
      ((∃ job, a = PoolAction.process job ∧ q.job_queue = p.job_queue ++ [job] ∧
          q.removed = p.removed ∧ q.submitted = p.submitted ++ [job]) ∨
       (∃ i job, a = PoolAction.take i ∧ p.job_queue = job :: q.job_queue ∧
          q.removed = p.removed ++ [(i, job)] ∧ q.submitted = p.submitted) ∨
       ((∀ job, a ≠ PoolAction.process job) ∧ q.job_queue = p.job_queue ∧
          q.removed = p.removed ∧ q.submitted = p.submitted)) := by
  have hinv := poolInv_run h
  have hsub : p.submitted = submissions acts := by
    rw [submitted_run h]
    rfl
  exact ⟨hinv.fifo.trans hsub, hsub, fun a q hq => ⟨(poolInv_step hinv hq).fifo, queue_step hq⟩⟩

/-- Witness of C3: two workers, two jobs, one of them dequeued. -/
theorem fifo_queue_invariant_witness :
    (ThreadPool.construct 2 : ThreadPool Int).run
        [PoolAction.process 7, PoolAction.process 8, PoolAction.take 1] =
      some { job_queue := [8]
             worker_threads := [⟨WorkerState.waiting, true⟩, ⟨WorkerState.running 7, true⟩]
             stop := false
             join_call := JoinCall.notCalled
             submitted := [7, 8]
             removed := [(1, 7)]
             processed := [] } ∧
    ([7] : List Int) ++ [8] = submissions [PoolAction.process 7, PoolAction.process 8,
      (PoolAction.take 1 : PoolAction Int)] :=
  ⟨by decide,
   (@fifo_queue_invariant Int _ 2
      [PoolAction.process 7, PoolAction.process 8, PoolAction.take 1]
      { job_queue := [8]
        worker_threads := [⟨WorkerState.waiting, true⟩, ⟨WorkerState.running 7, true⟩]
        stop := false
        join_call := JoinCall.notCalled
        submitted := [7, 8]
        removed := [(1, 7)]
        processed := [] } (by decide)).1⟩

/-- C10 (monotonicity of the stop flag and of termination). The constructor
leaves `stop` false. In every state `p` reached from a pool of `N` workers
there are `N` threads; a step other than the first part of `join` leaves `stop`
unchanged; and along every continuation `stop` stays set once set, the number
of threads stays `N`, and a thread that has left `worker_loop`, by either exit,
stays terminated by that exit and takes no step: neither `take` nor `handle`
of that worker occurs. -/
theorem stop_and_termination_monotone [JobValue JobT] (N : Nat) (acts : List (PoolAction JobT))
    (p : ThreadPool JobT)
    (h : (ThreadPool.construct N : ThreadPool JobT).run acts = some p) :
    (ThreadPool.construct N : ThreadPool JobT).stop = false ∧
    p.worker_threads.length = N ∧
    (∀ a q, p.step a = some q → a ≠ PoolAction.joinStop → q.stop = p.stop) ∧
    (∀ i t path, p.worker_threads[i]? = some t → t.state = WorkerState.terminated path →
      p.step (PoolAction.take i) = none ∧ p.step (PoolAction.handle i) = none) ∧
    ∀ more q, p.run more = some q →
      (p.stop = true → q.stop = true) ∧
      q.worker_threads.length = N ∧
      ∀ i t path, p.worker_threads[i]? = some t → t.state = WorkerState.terminated path →
        PoolAction.take i ∉ more ∧ PoolAction.handle i ∉ more ∧
        ∃ t', q.worker_threads[i]? = some t' ∧ t'.state = WorkerState.terminated path := by
  have hinv := poolInv_run h
  refine ⟨rfl, hinv.size, fun a q hq => (stop_step hq).1, fun i t path ht hs => ?_,
    fun more q hq => ?_⟩
  · constructor
    · cases hq : p.step (PoolAction.take i) with
      | none => rfl
      | some q => exact absurd rfl ((stop_step hq).2.2.2 i t path ht hs).1
    · cases hq : p.step (PoolAction.handle i) with
      | none => rfl
      | some q => exact absurd rfl ((stop_step hq).2.2.2 i t path ht hs).2.1
  · obtain ⟨h₁, h₂, h₃⟩ := absorbing_run hq
    exact ⟨h₁, by rw [h₂, hinv.size], h₃⟩

/-- Witness of C10: one worker that has left by line 55 after `join` set
`stop`. -/
theorem stop_and_termination_monotone_witness :
    (ThreadPool.construct 1 : ThreadPool Int).run [PoolAction.joinStop, PoolAction.take 0] =
      some { job_queue := []
             worker_threads := [⟨WorkerState.terminated ExitPath.shutdown, true⟩]
             stop := true
             join_call := JoinCall.inLoop 0
             submitted := []
             removed := []
             processed := [] } ∧
    (ThreadPool.construct 1 : ThreadPool Int).stop = false :=
  ⟨by decide,
   (@stop_and_termination_monotone Int _ 1 [PoolAction.joinStop, PoolAction.take 0]
      { job_queue := []
        worker_threads := [⟨WorkerState.terminated ExitPath.shutdown, true⟩]
        stop := true
        join_call := JoinCall.inLoop 0
        submitted := []
        removed := []
        processed := [] } (by decide)).1⟩

/-- C5 (a sentinel isolates one worker). Let worker `i` be waiting and the
head of the queue be a falsy job. Its critical section dequeues that job and
changes nothing but the head of the queue, the state of worker `i` and the log
of removals. In any later state in which worker `i` still holds that job, its
next step terminates it by the sentinel exit and changes nothing else:
`worker_fn` is not called, and queue, `stop` and the other threads are as they
were. Both steps are enabled and do the same whatever the value of `stop`, and
after them any other waiting worker can dequeue the next job. -/
theorem sentinel_isolates_one_worker [JobValue JobT]
    (p : ThreadPool JobT) (i : Nat) (t : WorkerThread JobT)
    (job : JobT) (rest : List JobT) (ht : p.worker_threads[i]? = some t)
    (hw : t.state = WorkerState.waiting) (hq : p.job_queue = job :: rest)
    (hf : JobValue.falsy job = true) :
    (∀ b, ({ p with stop := b } : ThreadPool JobT).step (PoolAction.take i) =
      some { p with
        stop := b
        job_queue := rest
        worker_threads := p.worker_threads.set i ⟨WorkerState.running job, t.joinable⟩
        removed := p.removed ++ [(i, job)] }) ∧
    (∀ (q : ThreadPool JobT) (u : WorkerThread JobT), q.worker_threads[i]? = some u →
      u.state = WorkerState.running job →
      (∀ b, ({ q with stop := b } : ThreadPool JobT).step (PoolAction.handle i) =
        some { q with
          stop := b
          worker_threads :=
            q.worker_threads.set i ⟨WorkerState.terminated ExitPath.sentinel, u.joinable⟩ }) ∧
      ∀ r, q.step (PoolAction.handle i) = some r →
        r.processed = q.processed ∧ r.job_queue = q.job_queue ∧ r.stop = q.stop ∧
        r.worker_threads.length = q.worker_threads.length ∧
        r.worker_threads[i]? = some ⟨WorkerState.terminated ExitPath.sentinel, u.joinable⟩ ∧
        (∀ k, k ≠ i → r.worker_threads[k]? = q.worker_threads[k]?) ∧
        ∀ k v next later, k ≠ i → q.worker_threads[k]? = some v →
          v.state = WorkerState.waiting → q.job_queue = next :: later →
          r.step (PoolAction.take k) =
            some { r with
              job_queue := later
              worker_threads := r.worker_threads.set k ⟨WorkerState.running next, v.joinable⟩
              removed := r.removed ++ [(k, next)] }) := by
  have hlt : ∀ {ts : List (WorkerThread JobT)} {j : Nat} {v : WorkerThread JobT},
      ts[j]? = some v → j < ts.length := by
    intro ts j v hv
    by_contra hcon
    rw [List.getElem?_eq_none (Nat.le_of_not_lt hcon)] at hv
    cases hv
  refine ⟨fun b => ?_, fun q u hu hr => ?_⟩
  · simp [ThreadPool.step, ThreadPool.worker_loop_take, ht, hw, hq]
  · have hstep : ∀ b, ({ q with stop := b } : ThreadPool JobT).step (PoolAction.handle i) =
        some { q with
          stop := b
          worker_threads :=
            q.worker_threads.set i ⟨WorkerState.terminated ExitPath.sentinel, u.joinable⟩ } := by
      intro b
      simp [ThreadPool.step, ThreadPool.worker_loop_handle, hu, hr, hf]
    refine ⟨hstep, fun r hqr => ?_⟩
    have := hstep q.stop
    rw [show ({ q with stop := q.stop } : ThreadPool JobT) = q from rfl, hqr] at this
    simp only [Option.some.injEq] at this
    subst this
    refine ⟨rfl, rfl, rfl, by simp, by simp [List.getElem?_set, hlt hu], fun k hk => ?_,
      fun k v next later hk hv hvw hnext => ?_⟩
    · simp [List.getElem?_set, Ne.symm hk]
    · simp [ThreadPool.step, ThreadPool.worker_loop_take, List.getElem?_set, Ne.symm hk, hv,
        hvw, hnext]

/-- Witness of C5: two workers, the queue holds the sentinel `0` and then
`42`, and `stop` is set. -/
theorem sentinel_isolates_one_worker_witness :
    JobValue.falsy (0 : Int) = true ∧
    ({ job_queue := [0, 42]
       worker_threads := [⟨WorkerState.waiting, true⟩, ⟨WorkerState.waiting, true⟩]
       stop := true
       join_call := JoinCall.notCalled
       submitted := [0, 42]
       removed := []
       processed := [] } : ThreadPool Int).step (PoolAction.take 0) =
      some { job_queue := [42]
             worker_threads := [⟨WorkerState.running 0, true⟩, ⟨WorkerState.waiting, true⟩]
             stop := true
             join_call := JoinCall.notCalled
             submitted := [0, 42]
             removed := [(0, 0)]
             processed := [] } :=
  ⟨by decide,
   (@sentinel_isolates_one_worker Int _
      { job_queue := [0, 42]
        worker_threads := [⟨WorkerState.waiting, true⟩, ⟨WorkerState.waiting, true⟩]
        stop := false
        join_call := JoinCall.notCalled
        submitted := [0, 42]
        removed := []
        processed := [] } 0 ⟨WorkerState.waiting, true⟩ 0 [42] (by decide) rfl rfl
      (by decide)).1 true⟩

/-- With no thread, no worker step is enabled and no step touches the logs of
removals and of `worker_fn` calls. -/
theorem no_threads_step [JobValue JobT] {p q : ThreadPool JobT} {a : PoolAction JobT}
    (hp : p.worker_threads = [] ∧ p.removed = [] ∧ p.processed = [])
    (h : p.step a = some q) :
    q.worker_threads = [] ∧ q.removed = [] ∧ q.processed = [] := by
  obtain ⟨h₁, h₂, h₃⟩ := hp
  revert h
  refine p.step_cases
    (motive := fun _ q => q.worker_threads = [] ∧ q.removed = [] ∧ q.processed = [])
    ?_ ?_ ?_ ?_ ?_ ?_ ?_ ?_ ?_ a q
  · intro job
    exact ⟨h₁, h₂, h₃⟩
  · intro _
    exact ⟨h₁, h₂, h₃⟩
  · intro k _ _
    exact ⟨h₁, h₂, h₃⟩
  · intro k t _ _ _
    exact ⟨h₁, h₂, h₃⟩
  · intro k t path _ ht _ _
    simp [h₁] at ht
  · intro i t ht _ _ _
    simp [h₁] at ht
  · intro i t job rest ht _ _
    simp [h₁] at ht
  · intro i t job ht _ _
    simp [h₁] at ht
  · intro i t job ht _ _
    simp [h₁] at ht

/-- C7 (a pool of 0 workers). In every state reached from a pool constructed
with 0 workers: no worker step is enabled, `worker_fn` has never been called,
no job has been dequeued and the queue holds the submitted jobs in submission
order. `join` never waits: its first part only sets `stop`, and the loop of
lines 41-43, having no thread to join, returns at once changing nothing
else. -/
theorem zero_workers_never_process [JobValue JobT]
    (acts : List (PoolAction JobT)) (p : ThreadPool JobT)
    (h : (ThreadPool.construct 0 : ThreadPool JobT).run acts = some p) :
    (∀ i, p.step (PoolAction.take i) = none ∧ p.step (PoolAction.handle i) = none) ∧
    p.processed = [] ∧ p.removed = [] ∧ p.job_queue = submissions acts ∧
    p.worker_threads = [] ∧
    ((∀ k, p.join_call ≠ JoinCall.inLoop k) →
      p.step PoolAction.joinStop = some { p with stop := true, join_call := JoinCall.inLoop 0 } ∧
      p.run [PoolAction.joinStop, PoolAction.joinThread] =
        some { p with stop := true, join_call := JoinCall.returned }) ∧
    ((∃ k, p.join_call = JoinCall.inLoop k) →
      p.step PoolAction.joinThread = some { p with join_call := JoinCall.returned }) := by
  have hthreads : p.worker_threads = [] ∧ p.removed = [] ∧ p.processed = [] :=
    ThreadPool.run_preserves (fun _ => True)
      (fun q => q.worker_threads = [] ∧ q.removed = [] ∧ q.processed = [])
      (fun _ _ _ _ hp hs => no_threads_step hp hs) acts _ p (fun _ _ => trivial)
      ⟨rfl, rfl, rfl⟩ h
  obtain ⟨h₁, h₂, h₃⟩ := hthreads
  have hfifo := (poolInv_run h).fifo
  have hsub := submitted_run h
  simp only [ThreadPool.removedJobs, h₂, List.map_nil, List.nil_append] at hfifo
  refine ⟨fun i => ?_, h₃, h₂, ?_, h₁, fun hk => ?_, fun hk => ?_⟩
  · simp [ThreadPool.step, ThreadPool.worker_loop_take, ThreadPool.worker_loop_handle, h₁]
  · rw [hfifo, hsub]
    exact List.nil_append _
  · have hstop : p.step PoolAction.joinStop =
        some { p with stop := true, join_call := JoinCall.inLoop 0 } := by
      cases hj : p.join_call with
      | inLoop k => exact absurd hj (hk k)
      | _ => simp [ThreadPool.step, ThreadPool.join_stop, hj]
    refine ⟨hstop, ?_⟩
    rw [ThreadPool.run_cons, hstop]
    simp [ThreadPool.run, ThreadPool.step, ThreadPool.join_thread, h₁]
  · obtain ⟨k, hk⟩ := hk
    simp [ThreadPool.step, ThreadPool.join_thread, hk, h₁]

/-- Witness of C7: 0 workers, 5 jobs. -/
theorem zero_workers_never_process_witness :
    (ThreadPool.construct 0 : ThreadPool Int).run
        [PoolAction.process 1, PoolAction.process 2, PoolAction.process 3,
         PoolAction.process 4, PoolAction.process 5] =
      some { job_queue := [1, 2, 3, 4, 5]
             worker_threads := []
             stop := false
             join_call := JoinCall.notCalled
             submitted := [1, 2, 3, 4, 5]
             removed := []
             processed := [] } ∧
    ({ job_queue := [1, 2, 3, 4, 5]
       worker_threads := []
       stop := false
       join_call := JoinCall.notCalled
       submitted := [1, 2, 3, 4, 5]
       removed := []
       processed := [] } : ThreadPool Int).run [PoolAction.joinStop, PoolAction.joinThread] =
      some { job_queue := [1, 2, 3, 4, 5]
             worker_threads := []
             stop := true
             join_call := JoinCall.returned
             submitted := [1, 2, 3, 4, 5]
             removed := []
             processed := [] } :=
  ⟨by decide,
   ((@zero_workers_never_process Int _
      [PoolAction.process 1, PoolAction.process 2, PoolAction.process 3,
       PoolAction.process 4, PoolAction.process 5]
      { job_queue := [1, 2, 3, 4, 5]
        worker_threads := []
        stop := false
        join_call := JoinCall.notCalled
        submitted := [1, 2, 3, 4, 5]
        removed := []
        processed := [] } (by decide)).2.2.2.2.2.1 (fun _ hk => by cases hk)).2⟩

/-- Once `join` has returned, every thread has terminated and every handle
has been joined. -/
theorem returned_all_terminated [JobValue JobT] {N : Nat} {p : ThreadPool JobT} (hinv : PoolInv N p)
    (hr : p.join_call = JoinCall.returned) :
    p.stop = true ∧ allTerminated p ∧ ∀ t ∈ p.worker_threads, t.joinable = false :=
  ⟨hinv.called_stop (by simp [hr]),
   fun t ht => hinv.joined_terminated t ht (hinv.returned_joined hr t ht),
   hinv.returned_joined hr⟩

/-- With every thread terminated, a step calls `worker_fn` on nothing, removes
nothing from the queue and leaves every thread terminated. -/
theorem all_terminated_step [JobValue JobT] {p q : ThreadPool JobT} {a : PoolAction JobT}
    (hp : allTerminated p) (h : p.step a = some q) :
    allTerminated q ∧ q.processed = p.processed ∧ ∃ tail, q.job_queue = p.job_queue ++ tail := by
  have hdead : ∀ {i : Nat} {t : WorkerThread JobT}, p.worker_threads[i]? = some t →
      (∀ path, t.state ≠ WorkerState.terminated path) → False := by
    intro i t ht hlive
    obtain ⟨path, hpath⟩ := hp t (mem_of_getElem? ht)
    exact hlive path hpath
  revert h
  refine p.step_cases
    (motive := fun _ q =>
      allTerminated q ∧ q.processed = p.processed ∧ ∃ tail, q.job_queue = p.job_queue ++ tail)
    ?_ ?_ ?_ ?_ ?_ ?_ ?_ ?_ ?_ a q
  · intro job
    exact ⟨hp, rfl, [job], rfl⟩
  · intro _
    exact ⟨hp, rfl, [], by simp⟩
  · intro k _ _
    exact ⟨hp, rfl, [], by simp⟩
  · intro k t _ _ _
    exact ⟨hp, rfl, [], by simp⟩
  · intro k t path _ ht _ hpath
    refine ⟨fun u hu => ?_, rfl, [], by simp⟩
    rcases mem_set_cases hu with h | h
    · exact ⟨path, by rw [h]; exact hpath⟩
    · exact hp u h
  · intro i t ht hw _ _
    exact (hdead ht (by simp [hw])).elim
  · intro i t job rest ht hw _
    exact (hdead ht (by simp [hw])).elim
  · intro i t job ht hr _
    exact (hdead ht (by simp [hr])).elim
  · intro i t job ht hr _
    exact (hdead ht (by simp [hr])).elim

/-- With every thread terminated, a run calls `worker_fn` on nothing and only
appends to the queue. -/
theorem all_terminated_run [JobValue JobT] {acts : List (PoolAction JobT)} {p q : ThreadPool JobT}
    (hp : allTerminated p) (h : p.run acts = some q) :
    allTerminated q ∧ q.processed = p.processed ∧ ∃ tail, q.job_queue = p.job_queue ++ tail := by
  induction acts generalizing p with
  | nil =>
    simp only [ThreadPool.run_nil, Option.some.injEq] at h
    subst h
    exact ⟨hp, rfl, [], by simp⟩
  | cons a rest ih =>
    obtain ⟨m, hm, hr⟩ := ThreadPool.run_cons_some h
    obtain ⟨h₁, h₂, t₁, h₃⟩ := all_terminated_step hp hm
    obtain ⟨h₄, h₅, t₂, h₆⟩ := ih h₁ hr
    exact ⟨h₄, h₅.trans h₂, t₁ ++ t₂, by rw [h₆, h₃, List.append_assoc]⟩

/-- Counterexample to C8: one worker; `join` is called and returns; the second
call of `join` reaches `std::thread::join` on the handle it has already joined
and exits with `std::system_error`. -/
theorem idempotent_join_counterexample :
    (ThreadPool.construct 1 : ThreadPool Int).run
        [PoolAction.joinStop, PoolAction.take 0, PoolAction.joinThread, PoolAction.joinThread] =
      some { job_queue := []
             worker_threads := [⟨WorkerState.terminated ExitPath.shutdown, false⟩]
             stop := true
             join_call := JoinCall.returned
             submitted := []
             removed := []
             processed := [] } ∧
    ({ job_queue := []
       worker_threads := [⟨WorkerState.terminated ExitPath.shutdown, false⟩]
       stop := true
       join_call := JoinCall.returned
       submitted := []
       removed := []
       processed := [] } : ThreadPool Int).run [PoolAction.joinStop, PoolAction.joinThread] =
      some { job_queue := []
             worker_threads := [⟨WorkerState.terminated ExitPath.shutdown, false⟩]
             stop := true
             join_call := JoinCall.threw
             submitted := []
             removed := []
             processed := [] } := by
  decide

/-- C8, amended (a second `join`). In every state reached from a pool of `N`
workers in which `join` has returned, a second call of `join` is enabled and
its first part changes nothing (`stop` is already set). With `N ≥ 1` the loop
then finds the first handle not joinable and the call exits with
`std::system_error`; queue, `stop`, threads and logs are as before the call.
With `N = 0` the call returns at once and the state is as before the call. -/
theorem second_join_throws [JobValue JobT]
    (N : Nat) (acts : List (PoolAction JobT)) (p : ThreadPool JobT)
    (h : (ThreadPool.construct N : ThreadPool JobT).run acts = some p)
    (hr : p.join_call = JoinCall.returned) :
    p.step PoolAction.joinStop = some { p with join_call := JoinCall.inLoop 0 } ∧
    (1 ≤ N → p.run [PoolAction.joinStop, PoolAction.joinThread] =
      some { p with join_call := JoinCall.threw }) ∧
    (N = 0 → p.run [PoolAction.joinStop, PoolAction.joinThread] = some p) := by
  have hinv := poolInv_run h
  obtain ⟨hstop, _, hjoined⟩ := returned_all_terminated hinv hr
  have hfirst : p.step PoolAction.joinStop = some { p with join_call := JoinCall.inLoop 0 } := by
    simp only [ThreadPool.step, ThreadPool.join_stop, hr]
    rw [← hstop]
  refine ⟨hfirst, fun hN => ?_, fun hN => ?_⟩
  · have hlen : 0 < p.worker_threads.length := by
      rw [hinv.size]
      exact hN
    have ht : p.worker_threads[0]? = some p.worker_threads[0] := List.getElem?_eq_getElem hlen
    have hj : p.worker_threads[0].joinable = false :=
      hjoined _ (List.getElem_mem hlen)
    rw [ThreadPool.run_cons, hfirst]
    simp [ThreadPool.run, ThreadPool.step, ThreadPool.join_thread, ht, hj]
  · have hnil : p.worker_threads = [] := by
      apply List.eq_nil_of_length_eq_zero
      rw [hinv.size]
      exact hN
    rw [ThreadPool.run_cons, hfirst]
    simp only [Option.some_bind, ThreadPool.run, ThreadPool.step, ThreadPool.join_thread, hnil,
      List.getElem?_nil, Option.some.injEq]
    cases p
    simp_all

/-- Witness of C8, amended: one worker, `join` has returned. -/
theorem second_join_throws_witness :
    ({ job_queue := []
       worker_threads := [⟨WorkerState.terminated ExitPath.shutdown, false⟩]
       stop := true
       join_call := JoinCall.returned
       submitted := []
       removed := []
       processed := [] } : ThreadPool Int).step PoolAction.joinStop =
      some { job_queue := []
             worker_threads := [⟨WorkerState.terminated ExitPath.shutdown, false⟩]
             stop := true
             join_call := JoinCall.inLoop 0
             submitted := []
             removed := []
             processed := [] } :=
  (@second_join_throws Int _ 1
    [PoolAction.joinStop, PoolAction.take 0, PoolAction.joinThread, PoolAction.joinThread]
    { job_queue := []
      worker_threads := [⟨WorkerState.terminated ExitPath.shutdown, false⟩]
      stop := true
      join_call := JoinCall.returned
      submitted := []
      removed := []
      processed := [] } (by decide) rfl).1

/-- Counterexample to C9: one worker; after `join` has returned, `process(5)`
is carried out, reports nothing and leaves `5` in the queue. -/
theorem process_after_join_counterexample :
    (ThreadPool.construct 1 : ThreadPool Int).run
        [PoolAction.joinStop, PoolAction.take 0, PoolAction.joinThread, PoolAction.joinThread] =
      some { job_queue := []
             worker_threads := [⟨WorkerState.terminated ExitPath.shutdown, false⟩]
             stop := true
             join_call := JoinCall.returned
             submitted := []
             removed := []
             processed := [] } ∧
    ({ job_queue := []
       worker_threads := [⟨WorkerState.terminated ExitPath.shutdown, false⟩]
       stop := true
       join_call := JoinCall.returned
       submitted := []
       removed := []
       processed := [] } : ThreadPool Int).step (PoolAction.process 5) =
      some { job_queue := [5]
             worker_threads := [⟨WorkerState.terminated ExitPath.shutdown, false⟩]
             stop := true
             join_call := JoinCall.returned
             submitted := [5]
             removed := []
             processed := [] } := by
  decide

/-- C9, amended (submission after shutdown). In every state reached from a
pool of `N` workers in which `join` has returned, `process(job)` is carried
out for every job: the step is enabled, it appends the job at the tail of the
queue and changes nothing else but the log of submissions. Along every
continuation the job stays in the queue, behind what was there, and
`worker_fn` is called on nothing. -/
theorem process_after_join_enqueues [JobValue JobT] (N : Nat) (acts : List (PoolAction JobT))
    (p : ThreadPool JobT)
    (h : (ThreadPool.construct N : ThreadPool JobT).run acts = some p)
    (hr : p.join_call = JoinCall.returned) (job : JobT) :
    p.step (PoolAction.process job) =
      some { p with job_queue := p.job_queue ++ [job], submitted := p.submitted ++ [job] } ∧
    ∀ more q, (p.process job).run more = some q →
      q.processed = p.processed ∧ ∃ tail, q.job_queue = p.job_queue ++ job :: tail := by
  have hinv := poolInv_run h
  obtain ⟨_, hterm, _⟩ := returned_all_terminated hinv hr
  refine ⟨rfl, fun more q hq => ?_⟩
  have hterm' : allTerminated (p.process job) := hterm
  obtain ⟨_, h₁, tail, h₂⟩ := all_terminated_run hterm' hq
  exact ⟨h₁, tail, by rw [h₂]; simp [ThreadPool.process]⟩

/-- Witness of C9, amended: one worker, `join` has returned, `process(5)`. -/
theorem process_after_join_enqueues_witness :
    ({ job_queue := []
       worker_threads := [⟨WorkerState.terminated ExitPath.shutdown, false⟩]
       stop := true
       join_call := JoinCall.returned
       submitted := []
       removed := []
       processed := [] } : ThreadPool Int).step (PoolAction.process 5) =
      some { job_queue := [5]
             worker_threads := [⟨WorkerState.terminated ExitPath.shutdown, false⟩]
             stop := true
             join_call := JoinCall.returned
             submitted := [5]
             removed := []
             processed := [] } :=
  (@process_after_join_enqueues Int _ 1
    [PoolAction.joinStop, PoolAction.take 0, PoolAction.joinThread, PoolAction.joinThread]
    { job_queue := []
      worker_threads := [⟨WorkerState.terminated ExitPath.shutdown, false⟩]
      stop := true
      join_call := JoinCall.returned
      submitted := []
      removed := []
      processed := [] } (by decide) rfl 5).1

/-- A step that submits nothing keeps `Drained`. -/
theorem drained_step [JobValue JobT] {p q : ThreadPool JobT} {a : PoolAction JobT} (hd : Drained p)
    (ha : ∀ job, a ≠ PoolAction.process job) (h : p.step a = some q) : Drained q := by
  refine p.step_cases
    (motive := fun a q => (∀ job, a ≠ PoolAction.process job) → Drained q)
    ?_ ?_ ?_ ?_ ?_ ?_ ?_ ?_ ?_ a q h ha
  · intro job ha
    exact absurd rfl (ha job)
  · intro _ _
    exact hd
  · intro k _ _ _
    exact hd
  · intro k t _ _ _ _
    exact hd
  · intro k t path _ ht _ hpath _ hex
    obtain ⟨u, hu, hs⟩ := hex
    apply hd
    rcases mem_set_cases hu with h | h
    · exact ⟨t, mem_of_getElem? ht, by rw [h] at hs; exact hs⟩
    · exact ⟨u, h, hs⟩
  · intro i t _ _ _ hq _ _
    exact hq
  · intro i t job rest _ _ hq _ hex
    obtain ⟨u, hu, hs⟩ := hex
    rcases mem_set_cases hu with h | h
    · rw [h] at hs
      cases hs
    · have := hd ⟨u, h, hs⟩
      rw [this] at hq
      cases hq
  · intro i t job _ _ _ _ hex
    obtain ⟨u, hu, hs⟩ := hex
    rcases mem_set_cases hu with h | h
    · rw [h] at hs
      cases hs
    · exact hd ⟨u, h, hs⟩
  · intro i t job _ _ _ _ hex
    obtain ⟨u, hu, hs⟩ := hex
    rcases mem_set_cases hu with h | h
    · rw [h] at hs
      cases hs
    · exact hd ⟨u, h, hs⟩

/-- A schedule without `joinStop` leaves `stop` as it is. -/
theorem stop_unchanged_run [JobValue JobT] {acts : List (PoolAction JobT)} {p q : ThreadPool JobT}
    (hacts : ∀ a ∈ acts, a ≠ PoolAction.joinStop) (h : p.run acts = some q) :
    q.stop = p.stop := by
  induction acts generalizing p with
  | nil =>
    simp only [ThreadPool.run_nil, Option.some.injEq] at h
    subst h
    rfl
  | cons a rest ih =>
    obtain ⟨m, hm, hr⟩ := ThreadPool.run_cons_some h
    rw [ih (fun b hb => hacts b (List.mem_cons_of_mem _ hb)) hr]
    exact (stop_step hm).1 (hacts a (List.mem_cons_self _ _))

/-- A schedule without `process` submits nothing. -/
theorem submissions_eq_nil {acts : List (PoolAction JobT)}
    (hacts : ∀ a ∈ acts, ∀ job, a ≠ PoolAction.process job) : submissions acts = [] := by
  induction acts with
  | nil => rfl
  | cons a rest ih =>
    have hrest := ih (fun b hb => hacts b (List.mem_cons_of_mem _ hb))
    cases a with
    | process job => exact absurd rfl (hacts _ (List.mem_cons_self _ _) job)
    | joinStop => simpa [submissions] using hrest
    | joinThread => simpa [submissions] using hrest
    | take i => simpa [submissions] using hrest
    | handle i => simpa [submissions] using hrest

/-- When every submission precedes the first `joinStop`, the state reached
satisfies the invariants and `Drained`, and the jobs submitted are those of
the first part of the schedule. -/
theorem drained_run [JobValue JobT]
    {N : Nat} {pre post : List (PoolAction JobT)} {p : ThreadPool JobT}
    (hpre : ∀ a ∈ pre, a ≠ PoolAction.joinStop)
    (hpost : ∀ a ∈ post, ∀ job, a ≠ PoolAction.process job)
    (h : (ThreadPool.construct N : ThreadPool JobT).run (pre ++ PoolAction.joinStop :: post) =
      some p) :
    PoolInv N p ∧ Drained p ∧ p.submitted = submissions pre := by
  have hinv := poolInv_run h
  have hsub : p.submitted = submissions pre := by
    have := submitted_run h
    rw [submissions_append] at this
    have hnil : submissions (PoolAction.joinStop :: post) = [] :=
      submissions_eq_nil (fun a ha job => by
        rcases List.mem_cons.mp ha with h | h
        · rw [h]
          exact fun h' => by cases h'
        · exact hpost a h job)
    rw [hnil] at this
    simpa [ThreadPool.construct] using this
  refine ⟨hinv, ?_, hsub⟩
  obtain ⟨m, hm, hrest⟩ := ThreadPool.run_append_some h
  have hstop : m.stop = false := stop_unchanged_run hpre hm
  have hminv := poolInv_run hm
  have hmd : Drained m := by
    intro hex
    obtain ⟨t, ht, hs⟩ := hex
    have := hminv.shutdown_stop t ht hs
    rw [hstop] at this
    cases this
  exact ThreadPool.run_preserves (fun a => ∀ job, a ≠ PoolAction.process job) Drained
    (fun _ _ _ ha hd hs => drained_step hd ha hs) _ m p
    (fun a ha job => by
      rcases List.mem_cons.mp ha with h | h
      · rw [h]
        exact fun h' => by cases h'
      · exact hpost a h job)
    hmd hrest

/-- No job is in flight once every worker has terminated. -/
theorem inflight_terminated {ts : List (WorkerThread JobT)}
    (h : ∀ t ∈ ts, ∃ path, t.state = WorkerState.terminated path) : inflight ts = [] := by
  induction ts with
  | nil => rfl
  | cons t rest ih =>
    obtain ⟨path, hp⟩ := h t (List.mem_cons_self _ _)
    simp [inflight, held, hp, ih (fun u hu => h u (List.mem_cons_of_mem _ hu))]

/-- If every worker has terminated and none by line 55, then all of them have
terminated on a falsy job. -/
theorem sentinelExits_terminated [JobValue JobT] {ts : List (WorkerThread JobT)}
    (h : ∀ t ∈ ts, ∃ path, t.state = WorkerState.terminated path)
    (hno : ∀ t ∈ ts, t.state ≠ WorkerState.terminated ExitPath.shutdown) :
    sentinelExits ts = ts.length := by
  induction ts with
  | nil => rfl
  | cons t rest ih =>
    have hrest := ih (fun u hu => h u (List.mem_cons_of_mem _ hu))
      (fun u hu => hno u (List.mem_cons_of_mem _ hu))
    obtain ⟨path, hp⟩ := h t (List.mem_cons_self _ _)
    have hpath : path = ExitPath.sentinel := by
      cases path with
      | shutdown => exact absurd hp (hno t (List.mem_cons_self _ _))
      | sentinel => rfl
    subst hpath
    simp only [sentinelExits] at hrest ⊢
    simp only [List.map_cons, List.sum_cons, hp, sentinelBound_sentinel, List.length_cons, hrest]
    omega

/-- Accounting in a state where every worker has terminated: the real jobs
submitted are those passed to `worker_fn` and those left in the queue. If
moreover the state is `Drained` and fewer falsy jobs were submitted than there
are workers, the queue is empty. -/
theorem terminated_accounting [JobValue JobT] {N : Nat} {p : ThreadPool JobT} (hinv : PoolInv N p)
    (hterm : allTerminated p) :
    List.Perm (p.submitted.filter isWork) (p.processedJobs ++ p.job_queue.filter isWork) ∧
    (Drained p → (p.submitted.filter JobValue.falsy).length < N → p.job_queue = []) := by
  constructor
  · have hc := hinv.conserved
    rw [inflight_terminated hterm] at hc
    rw [← hinv.fifo, List.filter_append]
    apply Multiset.coe_eq_coe.mp
    rw [← Multiset.coe_add, ← Multiset.coe_add, hc]
    simp
  · intro hd hlt
    apply hd
    by_contra hno
    have hno' : ∀ t ∈ p.worker_threads, t.state ≠ WorkerState.terminated ExitPath.shutdown :=
      fun t ht hs => hno ⟨t, ht, hs⟩
    have h₁ := sentinelExits_terminated hterm hno'
    have h₂ := hinv.sentinels
    have h₃ := hinv.size
    have h₄ : (p.removedJobs.filter JobValue.falsy).length ≤
        (p.submitted.filter JobValue.falsy).length := by
      rw [← hinv.fifo, List.filter_append, List.length_append]
      omega
    omega

/-- Counterexample to C1: one worker; `process(0)`, `process(42)`; the worker
dequeues the sentinel `0` and leaves the loop; `join` returns. The job `42`
was submitted, is not falsy, and `worker_fn` was never called on it: it is
still in the queue. -/
theorem no_loss_counterexample :
    (ThreadPool.construct 1 : ThreadPool Int).run
        [PoolAction.process 0, PoolAction.process 42, PoolAction.take 0, PoolAction.handle 0,
         PoolAction.joinStop, PoolAction.joinThread, PoolAction.joinThread] =
      some { job_queue := [42]
             worker_threads := [⟨WorkerState.terminated ExitPath.sentinel, false⟩]
             stop := true
             join_call := JoinCall.returned
             submitted := [0, 42]
             removed := [(0, 0)]
             processed := [] } ∧
    JobValue.falsy (42 : Int) = false := by
  decide

theorem servedPrefix_nil [JobValue JobT] (n : Nat) :
    servedPrefix n ([] : List JobT) = [] := by
  cases n <;> rfl

theorem servedPrefix_zero [JobValue JobT] (jobs : List JobT) : servedPrefix 0 jobs = [] := by
  cases jobs <;> rfl

theorem servedPrefix_succ_cons [JobValue JobT] (n : Nat) (job : JobT) (rest : List JobT) :
    servedPrefix (n + 1) (job :: rest) =
      job :: servedPrefix (if JobValue.falsy job then n else n + 1) rest := rfl

/-- Jobs with fewer than `n` falsy ones among them are all dequeued, and the
workers left go on with what follows. -/
theorem servedPrefix_append [JobValue JobT] (front rest : List JobT) (n : Nat)
    (h : (front.filter JobValue.falsy).length < n) :
    servedPrefix n (front ++ rest) =
      front ++ servedPrefix (n - (front.filter JobValue.falsy).length) rest := by
  induction front generalizing n with
  | nil => simp
  | cons a fr ih =>
    obtain ⟨m, rfl⟩ : ∃ m, n = m + 1 := ⟨n - 1, by omega⟩
    rw [List.cons_append, servedPrefix_succ_cons]
    cases ha : JobValue.falsy a with
    | true =>
      have hlen : ((a :: fr).filter JobValue.falsy).length =
          (fr.filter JobValue.falsy).length + 1 := by
        simp [List.filter, ha]
      rw [hlen] at h ⊢
      have e : m + 1 - ((fr.filter JobValue.falsy).length + 1) =
          m - (fr.filter JobValue.falsy).length := by omega
      rw [e, if_pos rfl, ih m (by omega)]
      rfl
    | false =>
      have hlen : ((a :: fr).filter JobValue.falsy).length =
          (fr.filter JobValue.falsy).length := by
        simp [List.filter, ha]
      rw [hlen] at h ⊢
      rw [if_neg (by simp), ih (m + 1) h]
      rfl

/-- Each thread counts at most once among the workers retired by a falsy
job. -/
theorem sentinelExits_le [JobValue JobT] (ts : List (WorkerThread JobT)) :
    sentinelExits ts ≤ ts.length := by
  induction ts with
  | nil => simp [sentinelExits]
  | cons t rest ih =>
    have hb : sentinelBound t.state ≤ 1 := by
      cases hs : t.state with
      | waiting => simp [sentinelBound]
      | running job =>
        rw [sentinelBound_running]
        split <;> omega
      | terminated path => cases path <;> simp [sentinelBound]
    simp only [sentinelExits] at ih ⊢
    simp only [List.map_cons, List.sum_cons, List.length_cons]
    omega

/-- While some worker waits, fewer falsy jobs have been dequeued than there
are workers. -/
theorem sentinelExits_lt_of_waiting [JobValue JobT] {ts : List (WorkerThread JobT)} {i : Nat}
    {t : WorkerThread JobT} (ht : ts[i]? = some t) (hw : t.state = WorkerState.waiting) :
    sentinelExits ts < ts.length := by
  have hsum := sum_map_set (fun t => sentinelBound t.state) ht
    ⟨WorkerState.terminated ExitPath.sentinel, t.joinable⟩
  have hle := sentinelExits_le (ts.set i ⟨WorkerState.terminated ExitPath.sentinel, t.joinable⟩)
  simp only [hw, sentinelBound_waiting, sentinelBound_sentinel] at hsum
  simp only [sentinelExits, List.length_set] at hle ⊢
  omega

/-- Every enabled step keeps `ServedInv`. -/
theorem servedInv_step [JobValue JobT] {N : Nat} {p q : ThreadPool JobT} {a : PoolAction JobT}
    (hinv : PoolInv N p) (hserved : ServedInv N p) (h : p.step a = some q) :
    ServedInv N q := by
  revert h
  refine p.step_cases (motive := fun _ q => ServedInv N q) ?_ ?_ ?_ ?_ ?_ ?_ ?_ ?_ ?_ a q
  · intro job
    exact hserved
  · intro _
    exact hserved
  · intro k _ _
    exact hserved
  · intro k t _ _ _
    exact hserved
  · intro k t path _ _ _ _
    exact hserved
  · intro i t _ _ _ _
    exact hserved
  · intro i t job rest ht hw _ tail
    have hlt := sentinelExits_lt_of_waiting ht hw
    rw [hinv.sentinels, hinv.size] at hlt
    have hprev := hserved (job :: tail)
    simp only [ThreadPool.removedJobs] at hlt hprev
    simp only [ThreadPool.removedJobs, List.map_append, List.map_cons, List.map_nil,
      List.append_assoc, List.singleton_append, List.filter_append, List.length_append]
    generalize (List.filter JobValue.falsy (List.map Prod.snd p.removed)).length = k at hlt hprev ⊢
    obtain ⟨m, hm⟩ : ∃ m, N - k = m + 1 := ⟨N - k - 1, by omega⟩
    rw [hm, servedPrefix_succ_cons] at hprev
    rw [hprev]
    cases hf : JobValue.falsy job with
    | true =>
      have hlen : (List.filter JobValue.falsy [job]).length = 1 := by simp [List.filter, hf]
      have e : N - (k + 1) = m := by omega
      rw [hlen, e, if_pos rfl]
    | false =>
      have hlen : (List.filter JobValue.falsy [job]).length = 0 := by simp [List.filter, hf]
      have e : N - (k + 0) = m + 1 := by omega
      rw [hlen, e, if_neg (by simp)]
  · intro i t job _ _ _
    exact hserved
  · intro i t job _ _ _
    exact hserved

/-- Every state reached from a pool of `N` workers satisfies `ServedInv`. -/
theorem servedInv_run [JobValue JobT] {N : Nat} {acts : List (PoolAction JobT)}
    {p : ThreadPool JobT}
    (h : (ThreadPool.construct N : ThreadPool JobT).run acts = some p) : ServedInv N p := by
  have key : PoolInv N p ∧ ServedInv N p :=
    ThreadPool.run_preserves (fun _ => True) (fun q => PoolInv N q ∧ ServedInv N q)
      (fun _ _ _ _ hp hs => ⟨poolInv_step hp.1 hs, servedInv_step hp.1 hp.2 hs⟩) acts _ p
      (fun _ _ => trivial)
      ⟨poolInv_construct N, fun rest => by simp [ThreadPool.construct, ThreadPool.removedJobs]⟩ h
  exact key.2

/-- Once every worker has terminated in a `Drained` state, the jobs dequeued
are the submitted jobs up to and including the `N`-th falsy one. -/
theorem served_terminated [JobValue JobT] {N : Nat} {p : ThreadPool JobT} (hinv : PoolInv N p)
    (hserved : ServedInv N p) (hterm : allTerminated p) (hd : Drained p) :
    p.removedJobs = servedPrefix N p.submitted := by
  by_cases hex : ∃ t ∈ p.worker_threads, t.state = WorkerState.terminated ExitPath.shutdown
  · have hq := hd hex
    have hfifo := hinv.fifo
    rw [hq, List.append_nil] at hfifo
    have := hserved []
    rw [List.append_nil, servedPrefix_nil, List.append_nil] at this
    rw [← hfifo, this]
  · have hno : ∀ t ∈ p.worker_threads, t.state ≠ WorkerState.terminated ExitPath.shutdown :=
      fun t ht hs => hex ⟨t, ht, hs⟩
    have h₁ := sentinelExits_terminated hterm hno
    have h₂ := hinv.sentinels
    have h₃ := hinv.size
    have hzero : N - (p.removedJobs.filter JobValue.falsy).length = 0 := by omega
    have := hserved p.job_queue
    rw [hzero, servedPrefix_zero, List.append_nil, hinv.fifo] at this
    exact this.symm

/-- C1, amended (no duplication; no loss unless `N` sentinels are ahead).
Take any pool of `N` workers and any schedule, and let `join` have returned.
Then every worker has left `worker_loop`, and the real (non-falsy) jobs
submitted are, as a multiset, the jobs passed to `worker_fn` together with the
real jobs still in the queue: each was passed exactly once or is still queued,
none twice. If moreover every `process` call preceded the call of `join`, the
jobs dequeued are the submitted jobs up to and including the `N`-th falsy one
(all of them when fewer than `N` are falsy), the rest is still in the queue in
order, and the jobs passed to `worker_fn` are exactly the real jobs among the
dequeued ones. So a real job with fewer than `N` falsy jobs submitted ahead of
it has been passed to `worker_fn`; and when no job follows the `N`-th falsy
one, in particular when fewer than `N` jobs are falsy, the queue is empty and
the jobs passed to `worker_fn` are exactly the real jobs submitted. -/
theorem no_duplication_and_accounting [JobValue JobT] (N : Nat) (acts : List (PoolAction JobT))
    (p : ThreadPool JobT)
    (h : (ThreadPool.construct N : ThreadPool JobT).run acts = some p)
    (hr : p.join_call = JoinCall.returned) :
    allTerminated p ∧
    List.Perm ((submissions acts).filter isWork)
      (p.processedJobs ++ p.job_queue.filter isWork) ∧
    ∀ pre post, acts = pre ++ PoolAction.joinStop :: post →
      (∀ a ∈ pre, a ≠ PoolAction.joinStop) →
      (∀ a ∈ post, ∀ job, a ≠ PoolAction.process job) →
      p.removedJobs = servedPrefix N (submissions acts) ∧
      servedPrefix N (submissions acts) ++ p.job_queue = submissions acts ∧
      List.Perm p.processedJobs ((servedPrefix N (submissions acts)).filter isWork) ∧
      (∀ front job back, submissions acts = front ++ job :: back →
        (front.filter JobValue.falsy).length < N → JobValue.falsy job = false →
        job ∈ p.processedJobs) ∧
      (servedPrefix N (submissions acts) = submissions acts →
        p.job_queue = [] ∧ List.Perm p.processedJobs ((submissions acts).filter isWork)) ∧
      (((submissions acts).filter JobValue.falsy).length < N →
        p.job_queue = [] ∧ List.Perm p.processedJobs ((submissions acts).filter isWork)) := by
  have hinv := poolInv_run h
  have hsub : p.submitted = submissions acts := by
    rw [submitted_run h]
    rfl
  obtain ⟨_, hterm, _⟩ := returned_all_terminated hinv hr
  obtain ⟨hacc, _⟩ := terminated_accounting hinv hterm
  rw [hsub] at hacc
  refine ⟨hterm, hacc, fun pre post hform hpre hpost => ?_⟩
  have hd : Drained p := by
    subst hform
    exact (drained_run hpre hpost h).2.1
  have hrem := served_terminated hinv (servedInv_run h) hterm hd
  rw [hsub] at hrem
  have hfifo := hinv.fifo
  rw [hsub, hrem] at hfifo
  have hproc : List.Perm p.processedJobs ((servedPrefix N (submissions acts)).filter isWork) := by
    have hc := hinv.conserved
    rw [inflight_terminated hterm, hrem] at hc
    apply Multiset.coe_eq_coe.mp
    rw [hc]
    simp
  have hall : servedPrefix N (submissions acts) = submissions acts →
      p.job_queue = [] ∧ List.Perm p.processedJobs ((submissions acts).filter isWork) := by
    intro hs
    rw [hs] at hfifo hproc
    exact ⟨by simpa using hfifo, hproc⟩
  refine ⟨hrem, hfifo, hproc, fun front job back hjobs hlt hreal => ?_, hall, fun hlt => ?_⟩
  · have hpre := servedPrefix_append front (job :: back) N hlt
    obtain ⟨m, hm⟩ : ∃ m, N - (front.filter JobValue.falsy).length = m + 1 :=
      ⟨N - (front.filter JobValue.falsy).length - 1, by omega⟩
    rw [hm, servedPrefix_succ_cons, ← hjobs] at hpre
    apply hproc.symm.subset
    rw [List.mem_filter, hpre]
    exact ⟨by simp, by simp [isWork, hreal]⟩
  · apply hall
    have := servedPrefix_append (submissions acts) [] N hlt
    rw [List.append_nil, servedPrefix_nil, List.append_nil] at this
    exact this

/-- Witness of C1, amended: one worker; the job `42`, then the sentinel `0`. -/
theorem no_duplication_and_accounting_witness :
    (ThreadPool.construct 1 : ThreadPool Int).run
        [PoolAction.process 42, PoolAction.process 0, PoolAction.take 0, PoolAction.handle 0,
         PoolAction.take 0, PoolAction.handle 0, PoolAction.joinStop, PoolAction.joinThread,
         PoolAction.joinThread] =
      some { job_queue := []
             worker_threads := [⟨WorkerState.terminated ExitPath.sentinel, false⟩]
             stop := true
             join_call := JoinCall.returned
             submitted := [42, 0]
             removed := [(0, 42), (0, 0)]
             processed := [(0, 42)] } ∧
    List.Perm ([42] : List Int) ([42] ++ []) :=
  ⟨by decide,
   (@no_duplication_and_accounting Int _ 1
      [PoolAction.process 42, PoolAction.process 0, PoolAction.take 0, PoolAction.handle 0,
       PoolAction.take 0, PoolAction.handle 0, PoolAction.joinStop, PoolAction.joinThread,
       PoolAction.joinThread]
      { job_queue := []
        worker_threads := [⟨WorkerState.terminated ExitPath.sentinel, false⟩]
        stop := true
        join_call := JoinCall.returned
        submitted := [42, 0]
        removed := [(0, 42), (0, 0)]
        processed := [(0, 42)] }
      (by decide) rfl).2.1⟩

/-- Counterexample to C4: two workers; the job `7` is in the queue when `join`
sets `stop`; worker 0 dequeues `7` and releases the lock; before it reaches the
call on line 66, worker 1 finds `stop && job_queue.empty()` and returns on
line 55. At that moment `worker_fn` has been called on nothing. -/
theorem shutdown_drains_counterexample :
    (ThreadPool.construct 2 : ThreadPool Int).run [PoolAction.process 7, PoolAction.joinStop] =
      some { job_queue := [7]
             worker_threads := [⟨WorkerState.waiting, true⟩, ⟨WorkerState.waiting, true⟩]
             stop := true
             join_call := JoinCall.inLoop 0
             submitted := [7]
             removed := []
             processed := [] } ∧
    ({ job_queue := [7]
       worker_threads := [⟨WorkerState.waiting, true⟩, ⟨WorkerState.waiting, true⟩]
       stop := true
       join_call := JoinCall.inLoop 0
       submitted := [7]
       removed := []
       processed := [] } : ThreadPool Int).run [PoolAction.take 0, PoolAction.take 1] =
      some { job_queue := []
             worker_threads := [⟨WorkerState.running 7, true⟩,
                                ⟨WorkerState.terminated ExitPath.shutdown, true⟩]
             stop := true
             join_call := JoinCall.inLoop 0
             submitted := [7]
             removed := [(0, 7)]
             processed := [] } ∧
    JobValue.falsy (7 : Int) = false := by
  decide

/-- C4, amended (shutdown drains the queue). Let `p` be the state in which
`join` has just set `stop`, reached from a pool of `N` workers. Take any
continuation, and a moment at which a worker `i` leaves by the `return` of
line 55. At that moment the queue is empty; the jobs that were in the queue of
`p` have all been dequeued, in order, right after those dequeued before; the
real jobs dequeued so far are, as a multiset, the jobs passed to `worker_fn`
together with the real jobs held by workers that have dequeued them and not
yet reached the call of line 66; so each non-falsy job of the queue of `p` has
been passed to `worker_fn` or is held by such a worker. -/
theorem shutdown_exit_after_dequeue [JobValue JobT] (N : Nat) (pre post : List (PoolAction JobT))
    (p₀ p s₁ s₂ : ThreadPool JobT) (i : Nat) (t : WorkerThread JobT)
    (h₀ : (ThreadPool.construct N : ThreadPool JobT).run pre = some p₀)
    (hstop : p₀.step PoolAction.joinStop = some p)
    (h₁ : p.run post = some s₁) (h₂ : s₁.step (PoolAction.take i) = some s₂)
    (ht : s₂.worker_threads[i]? = some t)
    (hexit : t.state = WorkerState.terminated ExitPath.shutdown) :
    s₂.job_queue = [] ∧
    (∃ later, s₂.removedJobs = p.removedJobs ++ p.job_queue ++ later) ∧
    List.Perm (s₂.removedJobs.filter isWork)
      (s₂.processedJobs ++ (inflight s₂.worker_threads).filter isWork) ∧
    ∀ job ∈ p.job_queue, JobValue.falsy job = false →
      job ∈ s₂.processedJobs ∨ job ∈ inflight s₂.worker_threads := by
  have hp := poolInv_step (poolInv_run h₀) hstop
  have hs₂ := poolInv_step (poolInv_run_from hp h₁) h₂
  have hq : s₂.job_queue = [] := by
    have key : ∀ a q, s₁.step a = some q → a = PoolAction.take i →
        (∀ u, q.worker_threads[i]? = some u →
          u.state = WorkerState.terminated ExitPath.shutdown → q.job_queue = []) := by
      intro a q
      refine s₁.step_cases
        (motive := fun a q => a = PoolAction.take i →
          (∀ u, q.worker_threads[i]? = some u →
            u.state = WorkerState.terminated ExitPath.shutdown → q.job_queue = []))
        ?_ ?_ ?_ ?_ ?_ ?_ ?_ ?_ ?_ a q
      · intro job ha
        cases ha
      · intro _ ha
        cases ha
      · intro k _ _ ha
        cases ha
      · intro k t _ _ _ ha
        cases ha
      · intro k t path _ _ _ _ ha
        cases ha
      · intro j t _ _ _ hempty _ _ _ _
        exact hempty
      · intro j v job rest hv _ _ ha u hu hs
        simp only [PoolAction.take.injEq] at ha
        subst ha
        have hlt : j < s₁.worker_threads.length := by
          by_contra hcon
          rw [List.getElem?_eq_none (Nat.le_of_not_lt hcon)] at hv
          cases hv
        simp only [List.getElem?_set, hlt, if_true, Option.some.injEq] at hu
        rw [← hu] at hs
        cases hs
      · intro j t job _ _ _ ha
        cases ha
      · intro j t job _ _ _ ha
        cases ha
    exact key _ _ h₂ rfl t ht hexit
  have hsub : s₂.submitted = p.submitted ++ submissions (post ++ [PoolAction.take i]) := by
    apply submitted_run
    rw [ThreadPool.run_append, h₁]
    simp [ThreadPool.run, h₂]
  have hrem : s₂.removedJobs = p.removedJobs ++ p.job_queue ++
      submissions (post ++ [PoolAction.take i]) := by
    have h := hs₂.fifo
    rw [hq, List.append_nil] at h
    rw [h, hsub, ← hp.fifo]
  have hperm : List.Perm (s₂.removedJobs.filter isWork)
      (s₂.processedJobs ++ (inflight s₂.worker_threads).filter isWork) := by
    apply Multiset.coe_eq_coe.mp
    rw [← Multiset.coe_add]
    exact hs₂.conserved
  refine ⟨hq, ⟨_, hrem⟩, hperm, fun job hjob hreal => ?_⟩
  have hmem : job ∈ s₂.removedJobs.filter isWork := by
    rw [List.mem_filter]
    refine ⟨?_, by simp [isWork, hreal]⟩
    rw [hrem]
    simp [hjob]
  have := hperm.subset hmem
  rcases List.mem_append.mp this with h | h
  · exact Or.inl h
  · exact Or.inr (List.mem_filter.mp h).1

/-- Witness of C4, amended: two workers; the sentinel `0` and the job `7` are
in the queue when `join` sets `stop`; worker 0 holds the sentinel, worker 1
has passed `7` to `worker_fn` and leaves by line 55. -/
theorem shutdown_exit_after_dequeue_witness :
    (ThreadPool.construct 2 : ThreadPool Int).run [PoolAction.process 0, PoolAction.process 7] =
      some { job_queue := [0, 7]
             worker_threads := [⟨WorkerState.waiting, true⟩, ⟨WorkerState.waiting, true⟩]
             stop := false
             join_call := JoinCall.notCalled
             submitted := [0, 7]
             removed := []
             processed := [] } ∧
    ∀ job ∈ ([0, 7] : List Int), JobValue.falsy job = false →
      job ∈ ([7] : List Int) ∨
        job ∈ inflight [(⟨WorkerState.running 0, true⟩ : WorkerThread Int),
          ⟨WorkerState.terminated ExitPath.shutdown, true⟩] :=
  ⟨by decide,
   (@shutdown_exit_after_dequeue Int _ 2 [PoolAction.process 0, PoolAction.process 7]
      [PoolAction.take 0, PoolAction.take 1, PoolAction.handle 1]
      { job_queue := [0, 7]
        worker_threads := [⟨WorkerState.waiting, true⟩, ⟨WorkerState.waiting, true⟩]
        stop := false
        join_call := JoinCall.notCalled
        submitted := [0, 7]
        removed := []
        processed := [] }
      { job_queue := [0, 7]
        worker_threads := [⟨WorkerState.waiting, true⟩, ⟨WorkerState.waiting, true⟩]
        stop := true
        join_call := JoinCall.inLoop 0
        submitted := [0, 7]
        removed := []
        processed := [] }
      { job_queue := []
        worker_threads := [⟨WorkerState.running 0, true⟩, ⟨WorkerState.waiting, true⟩]
        stop := true
        join_call := JoinCall.inLoop 0
        submitted := [0, 7]
        removed := [(0, 0), (1, 7)]
        processed := [(1, 7)] }
      { job_queue := []
        worker_threads := [⟨WorkerState.running 0, true⟩,
                           ⟨WorkerState.terminated ExitPath.shutdown, true⟩]
        stop := true
        join_call := JoinCall.inLoop 0
        submitted := [0, 7]
        removed := [(0, 0), (1, 7)]
        processed := [(1, 7)] }
      1 ⟨WorkerState.terminated ExitPath.shutdown, true⟩
      (by decide) (by decide) (by decide) (by decide) (by decide) rfl).2.2.2⟩

end Claims

/-! ## The log of each worker -/

section WorkerLogs

variable {JobT : Type}

theorem jobsOf_append_self (i : Nat) (log : List (Nat × JobT)) (job : JobT) :
    jobsOf i (log ++ [(i, job)]) = jobsOf i log ++ [job] := by
  simp [jobsOf, List.filter_append, List.filter]

theorem jobsOf_append_other {i j : Nat} (h : i ≠ j) (log : List (Nat × JobT)) (job : JobT) :
    jobsOf j (log ++ [(i, job)]) = jobsOf j log := by
  have hb : (i == j) = false := by simpa using h
  simp [jobsOf, List.filter_append, List.filter, hb]

theorem getElem?_lt {ts : List (WorkerThread JobT)} {i : Nat} {t : WorkerThread JobT}
    (h : ts[i]? = some t) : i < ts.length := by
  by_contra hcon
  rw [List.getElem?_eq_none (Nat.le_of_not_lt hcon)] at h
  cases h

/-- The thread found at `j` after thread `i` was replaced. -/
theorem getElem?_set_cases {ts : List (WorkerThread JobT)} {i j : Nat}
    {t t' u : WorkerThread JobT} (ht : ts[i]? = some t) (hu : (ts.set i t')[j]? = some u) :
    (i = j ∧ u = t') ∨ (i ≠ j ∧ ts[j]? = some u) := by
  by_cases hij : i = j
  · subst hij
    simp only [List.getElem?_set, getElem?_lt ht, if_true, Option.some.injEq] at hu
    exact Or.inl ⟨rfl, hu.symm⟩
  · simp only [List.getElem?_set, hij, if_false] at hu
    exact Or.inr ⟨hij, hu⟩

theorem workerInv_construct [JobValue JobT]
    (N : Nat) : WorkerInv (ThreadPool.construct N : ThreadPool JobT) := by
  refine ⟨fun i t ht => ?_, by simp [ThreadPool.construct], by simp [ThreadPool.construct]⟩
  have hmem := mem_of_getElem? ht
  simp only [ThreadPool.construct, List.mem_replicate] at hmem
  rw [hmem.2]
  simp [WorkerLog, ThreadPool.construct, jobsOf]

/-- Every enabled step keeps the logs of the workers in agreement with their
states. -/
theorem workerInv_step [JobValue JobT]
    {p q : ThreadPool JobT} {a : PoolAction JobT} (hinv : WorkerInv p)
    (h : p.step a = some q) : WorkerInv q := by
  obtain ⟨hlog, hids, hreal⟩ := hinv
  revert h
  refine p.step_cases (motive := fun _ q => WorkerInv q) ?_ ?_ ?_ ?_ ?_ ?_ ?_ ?_ ?_ a q
  · intro job
    exact ⟨hlog, hids, hreal⟩
  · intro _
    exact ⟨hlog, hids, hreal⟩
  · intro k _ _
    exact ⟨hlog, hids, hreal⟩
  · intro k t _ _ _
    exact ⟨hlog, hids, hreal⟩
  · intro k t path _ ht _ _
    refine ⟨fun j u hu => ?_, by simpa using hids, hreal⟩
    rcases getElem?_set_cases ht hu with ⟨hkj, hut⟩ | ⟨_, hold⟩
    · subst hkj
      rw [hut]
      exact hlog k t ht
    · exact hlog j u hold
  · intro i t ht hw _ _
    refine ⟨fun j u hu => ?_, by simpa using hids, hreal⟩
    rcases getElem?_set_cases ht hu with ⟨hij, hut⟩ | ⟨_, hold⟩
    · subst hij
      have := hlog i t ht
      rw [hw] at this
      rw [hut]
      exact this
    · exact hlog j u hold
  · intro i t job rest ht hw _
    refine ⟨fun j u hu => ?_, ?_, hreal⟩
    · rcases getElem?_set_cases ht hu with ⟨hij, hut⟩ | ⟨hij, hold⟩
      · subst hij
        have := hlog i t ht
        rw [hw] at this
        rw [hut]
        simp only [WorkerLog] at this ⊢
        rw [jobsOf_append_self, this]
      · have := hlog j u hold
        simp only [jobsOf_append_other hij]
        exact this
    · intro e he
      simp only [List.length_set]
      rcases List.mem_append.mp he with h | h
      · exact hids e h
      · simp only [List.mem_singleton] at h
        rw [h]
        exact getElem?_lt ht
  · intro i t job ht hr hf
    refine ⟨fun j u hu => ?_, by simpa using hids, hreal⟩
    rcases getElem?_set_cases ht hu with ⟨hij, hut⟩ | ⟨_, hold⟩
    · subst hij
      have := hlog i t ht
      rw [hr] at this
      rw [hut]
      exact ⟨job, hf, this⟩
    · exact hlog j u hold
  · intro i t job ht hr hf
    refine ⟨fun j u hu => ?_, by simpa using hids, ?_⟩
    · rcases getElem?_set_cases ht hu with ⟨hij, hut⟩ | ⟨hij, hold⟩
      · subst hij
        have := hlog i t ht
        rw [hr] at this
        rw [hut]
        simp only [WorkerLog] at this ⊢
        rw [jobsOf_append_self, this]
      · have := hlog j u hold
        simp only [jobsOf_append_other hij]
        exact this
    · intro e he
      rcases List.mem_append.mp he with h | h
      · exact hreal e h
      · simp only [List.mem_singleton] at h
        rw [h]
        exact hf

/-- Every state reached from a freshly constructed pool has the logs of its
workers in agreement with their states. -/
theorem workerInv_run [JobValue JobT]
    {N : Nat} {acts : List (PoolAction JobT)} {p : ThreadPool JobT}
    (h : (ThreadPool.construct N : ThreadPool JobT).run acts = some p) : WorkerInv p :=
  ThreadPool.run_preserves (fun _ => True) WorkerInv
    (fun _ _ _ _ hp hs => workerInv_step hp hs) acts _ p (fun _ _ => trivial)
    (workerInv_construct N) h

end WorkerLogs

/-! ## Scenario B -/

/-- In the state reached by scenario B once `join` has returned, one worker
has terminated on the sentinel, the other has passed `42` to `worker_fn` and
left by line 55. -/
theorem scenarioB_terminal {p : ThreadPool Int} (hinv : PoolInv 2 p) (hw : WorkerInv p)
    (hsub : p.submitted = [0, 42]) (hq : p.job_queue = []) (hstop : p.stop = true)
    (hr : p.join_call = JoinCall.returned) (hterm : allTerminated p)
    (hj : ∀ t ∈ p.worker_threads, t.joinable = false) :
    p = { job_queue := []
          worker_threads := [⟨WorkerState.terminated ExitPath.sentinel, false⟩,
                             ⟨WorkerState.terminated ExitPath.shutdown, false⟩]
          stop := true
          join_call := JoinCall.returned
          submitted := [0, 42]
          removed := [(0, 0), (1, 42)]
          processed := [(1, 42)] } ∨
    p = { job_queue := []
          worker_threads := [⟨WorkerState.terminated ExitPath.shutdown, false⟩,
                             ⟨WorkerState.terminated ExitPath.sentinel, false⟩]
          stop := true
          join_call := JoinCall.returned
          submitted := [0, 42]
          removed := [(1, 0), (0, 42)]
          processed := [(0, 42)] } := by
  obtain ⟨q, ts, st, jc, sub, rem, proc⟩ := p
  simp only at hsub hq hstop hr hj
  subst hsub hq hstop hr
  have hfifo := hinv.fifo
  have hsize := hinv.size
  have hacc := (terminated_accounting hinv hterm).1
  obtain ⟨hlog, hids, hreal⟩ := hw
  simp only [ThreadPool.removedJobs, ThreadPool.processedJobs, List.append_nil]
    at hfifo hsize hacc hlog hids hreal
  -- the threads
  match ts, hsize with
  | [t₀, t₁], _ =>
    -- the removals
    match rem, hfifo with
    | [(x, a), (y, b)], hfifo =>
      simp only [List.map_cons, List.map_nil, List.cons.injEq, and_true] at hfifo
      obtain ⟨ha, hb⟩ := hfifo
      subst ha hb
      have hx := hids (x, 0) (by simp)
      have hy := hids (y, 42) (by simp)
      simp only [List.length_cons, List.length_nil] at hx hy
      -- the calls of worker_fn
      have hproc : proc.map Prod.snd = [42] := by
        have : (List.filter isWork ([0, 42] : List Int)) = [42] := by decide
        rw [this] at hacc
        simpa using (List.singleton_perm.mp hacc).symm
      match proc, hproc with
      | [(w, c)], hproc =>
        simp only [List.map_cons, List.map_nil, List.cons.injEq, and_true] at hproc
        subst hproc
        have h₀ := hlog 0 t₀ rfl
        have h₁ := hlog 1 t₁ rfl
        obtain ⟨s₀, j₀⟩ := t₀
        obtain ⟨s₁, j₁⟩ := t₁
        have hj₀ := hj ⟨s₀, j₀⟩ (by simp)
        have hj₁ := hj ⟨s₁, j₁⟩ (by simp)
        obtain ⟨path₀, hp₀⟩ := hterm ⟨s₀, j₀⟩ (by simp)
        obtain ⟨path₁, hp₁⟩ := hterm ⟨s₁, j₁⟩ (by simp)
        simp only at hj₀ hj₁ hp₀ hp₁ h₀ h₁
        subst hj₀ hj₁ hp₀ hp₁
        have hf : ∀ job : Int, JobValue.falsy job = true ↔ job = 0 := by
          intro job
          simp [JobValue.falsy]
        have hw₀ : jobsOf 0 [(w, (42 : Int))] = if w = 0 then [42] else [] := by
          by_cases h : w = 0
          · simp [jobsOf, List.filter, h]
          · have hb : (w == 0) = false := by simpa using h
            simp [jobsOf, List.filter, h, hb]
        have hw₁ : jobsOf 1 [(w, (42 : Int))] = if w = 1 then [42] else [] := by
          by_cases h : w = 1
          · simp [jobsOf, List.filter, h]
          · have hb : (w == 1) = false := by simpa using h
            simp [jobsOf, List.filter, h, hb]
        rw [hw₀] at h₀
        rw [hw₁] at h₁
        clear hw₀ hw₁ hinv hterm hlog hids hj hacc hreal
        rcases (by omega : w = 0 ∨ w = 1 ∨ 2 ≤ w) with hw | hw | hw
        · subst hw
          interval_cases x <;> interval_cases y <;> cases path₀ <;> cases path₁ <;>
            simp [WorkerLog, jobsOf, List.filter, hf] at h₀ h₁ ⊢
        · subst hw
          interval_cases x <;> interval_cases y <;> cases path₀ <;> cases path₁ <;>
            simp [WorkerLog, jobsOf, List.filter, hf] at h₀ h₁ ⊢
        · have e₀ : ¬ w = 0 := by omega
          have e₁ : ¬ w = 1 := by omega
          interval_cases x <;> interval_cases y <;> cases path₀ <;> cases path₁ <;>
            simp [WorkerLog, jobsOf, List.filter, hf, e₀, e₁] at h₀ h₁ ⊢

/-! ## Progress and termination -/

section Progress

variable {JobT : Type}

theorem workLeft_waiting : workLeft (WorkerState.waiting : WorkerState JobT) = 1 := rfl

theorem workLeft_running (job : JobT) : workLeft (WorkerState.running job) = 2 := rfl

theorem workLeft_terminated (path : ExitPath) :
    workLeft (WorkerState.terminated path : WorkerState JobT) = 0 := rfl

/-- Every step uses up one unit of `stepsLeft`, after the units its call
adds. -/
theorem stepsLeft_step [JobValue JobT]
    {p q : ThreadPool JobT} {a : PoolAction JobT} (h : p.step a = some q) :
    stepsLeft q + 1 ≤ stepsLeft p + callCost p.worker_threads.length a := by
  revert h
  refine p.step_cases
    (motive := fun a q => stepsLeft q + 1 ≤ stepsLeft p + callCost p.worker_threads.length a)
    ?_ ?_ ?_ ?_ ?_ ?_ ?_ ?_ ?_ a q
  · intro job
    simp only [stepsLeft, joinLeft, ThreadPool.process, callCost, List.length_append,
      List.length_singleton]
    omega
  · intro hk
    have : joinLeft p = 0 := by
      cases hj : p.join_call with
      | inLoop k => exact absurd hj (hk k)
      | _ => simp [joinLeft, hj]
    simp only [stepsLeft, joinLeft, callCost, this]
    omega
  · intro k hk _
    simp only [stepsLeft, joinLeft, callCost, hk]
    omega
  · intro k t hk _ _
    simp only [stepsLeft, joinLeft, callCost, hk]
    omega
  · intro k t path hk ht _ _
    have hsum := sum_map_set (fun t => workLeft t.state) ht ⟨t.state, false⟩
    have hlt := getElem?_lt ht
    simp only [stepsLeft, joinLeft, callCost, hk, List.length_set]
    simp only at hsum
    omega
  · intro i t ht hw _ _
    have hsum := sum_map_set (fun t => workLeft t.state) ht
      ⟨WorkerState.terminated ExitPath.shutdown, t.joinable⟩
    simp only [hw, workLeft_waiting, workLeft_running, workLeft_terminated] at hsum
    simp only [stepsLeft, joinLeft, callCost, List.length_set]
    omega
  · intro i t job rest ht hw hq
    have hsum := sum_map_set (fun t => workLeft t.state) ht
      ⟨WorkerState.running job, t.joinable⟩
    simp only [hw, workLeft_waiting, workLeft_running, workLeft_terminated] at hsum
    simp only [stepsLeft, joinLeft, callCost, List.length_set, hq, List.length_cons]
    omega
  · intro i t job ht hr _
    have hsum := sum_map_set (fun t => workLeft t.state) ht
      ⟨WorkerState.terminated ExitPath.sentinel, t.joinable⟩
    simp only [hr, workLeft_waiting, workLeft_running, workLeft_terminated] at hsum
    simp only [stepsLeft, joinLeft, callCost, List.length_set]
    omega
  · intro i t job ht hr _
    have hsum := sum_map_set (fun t => workLeft t.state) ht
      ⟨WorkerState.waiting, t.joinable⟩
    simp only [hr, workLeft_waiting, workLeft_running, workLeft_terminated] at hsum
    simp only [stepsLeft, joinLeft, callCost, List.length_set]
    omega

/-- The length of a run is bounded by the steps left at its start and the
cost of the calls it contains. -/
theorem stepsLeft_run [JobValue JobT] {acts : List (PoolAction JobT)} {p q : ThreadPool JobT}
    (h : p.run acts = some q) :
    stepsLeft q + acts.length ≤
      stepsLeft p + (acts.map (callCost p.worker_threads.length)).sum := by
  induction acts generalizing p with
  | nil =>
    simp only [ThreadPool.run_nil, Option.some.injEq] at h
    subst h
    simp
  | cons a rest ih =>
    obtain ⟨m, hm, hr⟩ := ThreadPool.run_cons_some h
    have h₁ := stepsLeft_step hm
    have h₂ := ih hr
    rw [(stop_step hm).2.2.1] at h₂
    simp only [List.length_cons, List.map_cons, List.sum_cons]
    omega

/-- Only calls have a cost. -/
theorem callCost_filter (N : Nat) (acts : List (PoolAction JobT)) :
    (acts.map (callCost N)).sum = ((acts.filter PoolAction.isCall).map (callCost N)).sum := by
  induction acts with
  | nil => rfl
  | cons a rest ih =>
    cases a <;> simp [List.filter, PoolAction.isCall, callCost, ih]

theorem stepsLeft_construct (N : Nat) :
    stepsLeft (ThreadPool.construct N : ThreadPool JobT) = N := by
  simp [stepsLeft, joinLeft, ThreadPool.construct, workLeft_waiting]

/-- A worker step, which keeps the handle of its thread, keeps `FirstJoin`. -/
theorem firstJoin_worker {p q : ThreadPool JobT} (hf : FirstJoin p) {i : Nat}
    {t : WorkerThread JobT} (ht : p.worker_threads[i]? = some t) (X : WorkerState JobT)
    (hthreads : q.worker_threads = p.worker_threads.set i ⟨X, t.joinable⟩)
    (hcall : q.join_call = p.join_call) : FirstJoin q := by
  obtain ⟨h₁, h₂, h₃, h₄⟩ := hf
  rw [FirstJoin, hthreads, hcall]
  refine ⟨h₁, h₂, fun hn u hu => ?_, fun k hk j u hkj hu => ?_⟩
  · rcases mem_set_cases hu with h | h
    · rw [h]
      exact h₃ hn t (mem_of_getElem? ht)
    · exact h₃ hn u h
  · rcases getElem?_set_cases ht hu with ⟨hij, hut⟩ | ⟨_, hold⟩
    · subst hij
      rw [hut]
      exact h₄ k hk i t hkj ht
    · exact h₄ k hk j u hkj hold

/-- A step keeps `FirstJoin`, provided `join` is not called a second time. -/
theorem firstJoin_step [JobValue JobT]
    {p q : ThreadPool JobT} {a : PoolAction JobT} (hf : FirstJoin p)
    (ha : a = PoolAction.joinStop → p.join_call = JoinCall.notCalled)
    (h : p.step a = some q) : FirstJoin q ∨ q.join_call = JoinCall.returned := by
  obtain ⟨h₁, h₂, h₃, h₄⟩ := hf
  refine p.step_cases
    (motive := fun a q => (a = PoolAction.joinStop → p.join_call = JoinCall.notCalled) →
      (FirstJoin q ∨ q.join_call = JoinCall.returned))
    ?_ ?_ ?_ ?_ ?_ ?_ ?_ ?_ ?_ a q h ha
  · intro job _
    exact Or.inl ⟨h₁, h₂, h₃, h₄⟩
  · intro _ hc
    have hn := hc rfl
    refine Or.inl ⟨by simp, by simp, by simp, fun k _ i t _ ht => h₃ hn t (mem_of_getElem? ht)⟩
  · intro k _ _ _
    exact Or.inr rfl
  · intro k t hk ht hj _
    have := h₄ k hk k t (Nat.le_refl k) ht
    rw [hj] at this
    cases this
  · intro k t path hk ht _ _ _
    refine Or.inl ⟨by simp, by simp, by simp, fun k' hk' i u hki hu => ?_⟩
    simp only [JoinCall.inLoop.injEq] at hk'
    subst hk'
    rcases getElem?_set_cases ht hu with ⟨heq, _⟩ | ⟨_, hold⟩
    · omega
    · exact h₄ k hk i u (by omega) hold
  · intro i t ht _ _ _ _
    exact Or.inl (firstJoin_worker ⟨h₁, h₂, h₃, h₄⟩ ht _ rfl rfl)
  · intro i t job rest ht _ _ _
    exact Or.inl (firstJoin_worker ⟨h₁, h₂, h₃, h₄⟩ ht _ rfl rfl)
  · intro i t job ht _ _ _
    exact Or.inl (firstJoin_worker ⟨h₁, h₂, h₃, h₄⟩ ht _ rfl rfl)
  · intro i t job ht _ _ _
    exact Or.inl (firstJoin_worker ⟨h₁, h₂, h₃, h₄⟩ ht _ rfl rfl)

/-- How a step changes the progress of `join`. -/
theorem join_call_step [JobValue JobT]
    {p q : ThreadPool JobT} {a : PoolAction JobT} (h : p.step a = some q) :
    (a = PoolAction.joinStop → q.join_call = JoinCall.inLoop 0) ∧
    (a ≠ PoolAction.joinStop →
      (p.join_call = JoinCall.notCalled → q.join_call = JoinCall.notCalled) ∧
      (p.join_call = JoinCall.returned → q.join_call = JoinCall.returned) ∧
      (p.join_call ≠ JoinCall.notCalled → q.join_call ≠ JoinCall.notCalled)) := by
  revert h
  refine p.step_cases
    (motive := fun a q =>
      (a = PoolAction.joinStop → q.join_call = JoinCall.inLoop 0) ∧
      (a ≠ PoolAction.joinStop →
        (p.join_call = JoinCall.notCalled → q.join_call = JoinCall.notCalled) ∧
        (p.join_call = JoinCall.returned → q.join_call = JoinCall.returned) ∧
        (p.join_call ≠ JoinCall.notCalled → q.join_call ≠ JoinCall.notCalled)))
    ?_ ?_ ?_ ?_ ?_ ?_ ?_ ?_ ?_ a q
  · intro job
    exact ⟨(fun h => by cases h), fun _ => ⟨id, id, id⟩⟩
  · intro _
    exact ⟨fun _ => rfl, fun h => absurd rfl h⟩
  · intro k hk _
    exact ⟨(fun h => by cases h), fun _ => ⟨(fun h => by rw [hk] at h; cases h), (fun _ => rfl),
      (fun _ => by simp)⟩⟩
  · intro k t hk _ _
    exact ⟨(fun h => by cases h), fun _ => ⟨(fun h => by rw [hk] at h; cases h),
      (fun h => by rw [hk] at h; cases h), (fun _ => by simp)⟩⟩
  · intro k t path hk _ _ _
    exact ⟨(fun h => by cases h), fun _ => ⟨(fun h => by rw [hk] at h; cases h),
      (fun h => by rw [hk] at h; cases h), (fun _ => by simp)⟩⟩
  · intro i t _ _ _ _
    exact ⟨(fun h => by cases h), fun _ => ⟨id, id, id⟩⟩
  · intro i t job rest _ _ _
    exact ⟨(fun h => by cases h), fun _ => ⟨id, id, id⟩⟩
  · intro i t job _ _ _
    exact ⟨(fun h => by cases h), fun _ => ⟨id, id, id⟩⟩
  · intro i t job _ _ _
    exact ⟨(fun h => by cases h), fun _ => ⟨id, id, id⟩⟩

/-- A schedule with exactly one call of `join` ends inside that call or after
its return; no `std::system_error` has been thrown. -/
theorem firstJoin_run [JobValue JobT]
    {N : Nat} {pre post : List (PoolAction JobT)} {p : ThreadPool JobT}
    (hpre : ∀ a ∈ pre, a ≠ PoolAction.joinStop) (hpost : ∀ a ∈ post, a ≠ PoolAction.joinStop)
    (h : (ThreadPool.construct N : ThreadPool JobT).run (pre ++ PoolAction.joinStop :: post) =
      some p) :
    (FirstJoin p ∨ p.join_call = JoinCall.returned) ∧ p.join_call ≠ JoinCall.notCalled := by
  obtain ⟨m, hm, hrest⟩ := ThreadPool.run_append_some h
  obtain ⟨m', hm', hpost'⟩ := ThreadPool.run_cons_some hrest
  have h₀ : (ThreadPool.construct N : ThreadPool JobT).join_call = JoinCall.notCalled ∧
      FirstJoin (ThreadPool.construct N : ThreadPool JobT) := by
    refine ⟨rfl, by simp [ThreadPool.construct], by simp [ThreadPool.construct], ?_,
      by simp [ThreadPool.construct]⟩
    intro _ t ht
    simp only [ThreadPool.construct, List.mem_replicate] at ht
    rw [ht.2]
  have h₁ : m.join_call = JoinCall.notCalled ∧ FirstJoin m :=
    ThreadPool.run_preserves (fun a => a ≠ PoolAction.joinStop)
      (fun q => q.join_call = JoinCall.notCalled ∧ FirstJoin q)
      (fun r a r' ha hr hs => by
        have hn := ((join_call_step hs).2 ha).1 hr.1
        refine ⟨hn, ?_⟩
        rcases firstJoin_step hr.2 (fun h => absurd h ha) hs with hf | hret
        · exact hf
        · rw [hn] at hret
          cases hret)
      pre _ m hpre h₀ hm
  have h₂ : (FirstJoin m' ∨ m'.join_call = JoinCall.returned) ∧
      m'.join_call ≠ JoinCall.notCalled := by
    refine ⟨firstJoin_step h₁.2 (fun _ => h₁.1) hm', ?_⟩
    rw [(join_call_step hm').1 rfl]
    simp
  exact ThreadPool.run_preserves (fun a => a ≠ PoolAction.joinStop)
    (fun q => (FirstJoin q ∨ q.join_call = JoinCall.returned) ∧
      q.join_call ≠ JoinCall.notCalled)
    (fun r a r' ha hr hs => by
      obtain ⟨_, hret, hcalled⟩ := (join_call_step hs).2 ha
      refine ⟨?_, hcalled hr.2⟩
      rcases hr.1 with hf | hr'
      · exact firstJoin_step hf (fun h => absurd h ha) hs
      · exact Or.inr (hret hr'))
    post m' p hpost h₂ hpost'

/-- Inside the first call of `join` some step of a worker or of the loop of
`join` is enabled. -/
theorem join_progress [JobValue JobT] {N : Nat} {p : ThreadPool JobT} (hinv : PoolInv N p)
    (hf : FirstJoin p) (hcalled : p.join_call ≠ JoinCall.notCalled) :
    ∃ a q, PoolAction.isCall a = false ∧ p.step a = some q := by
  obtain ⟨h₁, h₂, _, h₄⟩ := hf
  have key : ∃ a, PoolAction.isCall a = false ∧ (p.step a).isSome = true := by
    cases hjc : p.join_call with
    | notCalled => exact absurd hjc hcalled
    | returned => exact absurd hjc h₂
    | threw => exact absurd hjc h₁
    | inLoop k =>
      have hstop := hinv.called_stop hcalled
      cases hk : p.worker_threads[k]? with
      | none =>
        exact ⟨PoolAction.joinThread, rfl, by
          simp [ThreadPool.step, ThreadPool.join_thread, hjc, hk]⟩
      | some t =>
        have hj := h₄ k hjc k t (Nat.le_refl k) hk
        cases hs : t.state with
        | waiting =>
          cases hq : p.job_queue with
          | nil =>
            exact ⟨PoolAction.take k, rfl, by
              simp [ThreadPool.step, ThreadPool.worker_loop_take, hk, hs, hstop, hq]⟩
          | cons job rest =>
            exact ⟨PoolAction.take k, rfl, by
              simp [ThreadPool.step, ThreadPool.worker_loop_take, hk, hs, hstop, hq]⟩
        | running job =>
          cases hfj : JobValue.falsy job with
          | true =>
            exact ⟨PoolAction.handle k, rfl, by
              simp [ThreadPool.step, ThreadPool.worker_loop_handle, hk, hs, hfj]⟩
          | false =>
            exact ⟨PoolAction.handle k, rfl, by
              simp [ThreadPool.step, ThreadPool.worker_loop_handle, hk, hs, hfj]⟩
        | terminated path =>
          exact ⟨PoolAction.joinThread, rfl, by
            simp [ThreadPool.step, ThreadPool.join_thread, hjc, hk, hj, hs]⟩
  obtain ⟨a, ha, hsome⟩ := key
  obtain ⟨q, hq⟩ := Option.isSome_iff_exists.mp hsome
  exact ⟨a, q, ha, hq⟩

end Progress

section ScenarioB

/-- Steps that are not calls are neither `joinStop` nor `process`. -/
theorem not_call_of_filter {JobT : Type} {l : List (PoolAction JobT)}
    (h : ∀ a ∈ l, ¬ PoolAction.isCall a = true) :
    (∀ a ∈ l, a ≠ PoolAction.joinStop) ∧ (∀ a ∈ l, ∀ job, a ≠ PoolAction.process job) := by
  constructor
  · intro a ha heq
    subst heq
    exact h _ ha rfl
  · intro a ha job heq
    subst heq
    exact h _ ha rfl

/-- C6 (scenario B). Two workers; the client calls `process(0)` with the
sentinel, then `process(42)`, then `join()`; the steps of the workers and of
the loop of `join` are interleaved with these calls in any way. Then: once
`join` has returned the state is one of two, which differ only in the worker
that took the sentinel: both workers have terminated, one on the sentinel
without any call of `worker_fn`, the other by line 55 after the only call of
`worker_fn`, which was on `42`, and the queue is empty. As long as `join` has
not returned, some step of a worker or of the loop of `join` is enabled, and
no interleaving has more than 14 steps: every interleaving runs on to the
return of `join`. -/
theorem scenario_B_sentinel_then_job (acts : List (PoolAction Int)) (p : ThreadPool Int)
    (hcalls : acts.filter PoolAction.isCall =
      [PoolAction.process 0, PoolAction.process 42, PoolAction.joinStop])
    (h : (ThreadPool.construct 2 : ThreadPool Int).run acts = some p) :
    (p.join_call = JoinCall.returned →
      p = { job_queue := []
            worker_threads := [⟨WorkerState.terminated ExitPath.sentinel, false⟩,
                               ⟨WorkerState.terminated ExitPath.shutdown, false⟩]
            stop := true
            join_call := JoinCall.returned
            submitted := [0, 42]
            removed := [(0, 0), (1, 42)]
            processed := [(1, 42)] } ∨
      p = { job_queue := []
            worker_threads := [⟨WorkerState.terminated ExitPath.shutdown, false⟩,
                               ⟨WorkerState.terminated ExitPath.sentinel, false⟩]
            stop := true
            join_call := JoinCall.returned
            submitted := [0, 42]
            removed := [(1, 0), (0, 42)]
            processed := [(0, 42)] }) ∧
    (p.join_call ≠ JoinCall.returned →
      ∃ a q, PoolAction.isCall a = false ∧ p.step a = some q) ∧
    acts.length ≤ 14 := by
  obtain ⟨l₁, r₁, hacts, hl₁, _, hr₁⟩ := List.filter_eq_cons_iff.mp hcalls
  obtain ⟨l₂, r₂, hr₁', hl₂, _, hr₂⟩ := List.filter_eq_cons_iff.mp hr₁
  obtain ⟨l₃, l₄, hr₂', hl₃, _, hl₄⟩ := List.filter_eq_cons_iff.mp hr₂
  have hl₄' : ∀ a ∈ l₄, ¬ PoolAction.isCall a = true := List.filter_eq_nil_iff.mp hl₄
  obtain ⟨s₁, p₁⟩ := not_call_of_filter hl₁
  obtain ⟨s₂, p₂⟩ := not_call_of_filter hl₂
  obtain ⟨s₃, p₃⟩ := not_call_of_filter hl₃
  obtain ⟨s₄, p₄⟩ := not_call_of_filter hl₄'
  have hform : acts = (l₁ ++ PoolAction.process 0 :: (l₂ ++ PoolAction.process 42 :: l₃)) ++
      PoolAction.joinStop :: l₄ := by
    rw [hacts, hr₁', hr₂']
    simp
  have hpre : ∀ a ∈ l₁ ++ PoolAction.process 0 :: (l₂ ++ PoolAction.process 42 :: l₃),
      a ≠ PoolAction.joinStop := by
    intro a ha
    simp only [List.mem_append, List.mem_cons] at ha
    rcases ha with h | h | h | h | h
    · exact s₁ a h
    · rw [h]
      exact fun h' => by cases h'
    · exact s₂ a h
    · rw [h]
      exact fun h' => by cases h'
    · exact s₃ a h
  have hsubm : submissions (l₁ ++ PoolAction.process 0 :: (l₂ ++ PoolAction.process 42 :: l₃)) =
      [0, 42] := by
    rw [submissions_append, submissions_eq_nil p₁]
    simp only [submissions, List.nil_append]
    rw [submissions_append, submissions_eq_nil p₂]
    simp only [submissions, List.nil_append]
    rw [submissions_eq_nil p₃]
  have h' := h
  rw [hform] at h'
  obtain ⟨hinv, hd, hsub⟩ := drained_run hpre p₄ h'
  rw [hsubm] at hsub
  obtain ⟨hfirst, hcalled⟩ := firstJoin_run hpre s₄ h'
  refine ⟨fun hr => ?_, fun hnr => ?_, ?_⟩
  · obtain ⟨hstop, hterm, hj⟩ := returned_all_terminated hinv hr
    have hq : p.job_queue = [] := by
      apply (terminated_accounting hinv hterm).2 hd
      rw [hsub]
      decide
    exact scenarioB_terminal hinv (workerInv_run h) hsub hq hstop hr hterm hj
  · rcases hfirst with hf | hret
    · exact join_progress hinv hf hcalled
    · exact absurd hret hnr
  · have hlen := stepsLeft_run h
    rw [callCost_filter, hcalls, stepsLeft_construct] at hlen
    simp only [ThreadPool.construct, List.length_replicate, List.map_cons, List.map_nil,
      callCost, List.sum_cons, List.sum_nil] at hlen
    omega

/-- Witness of C6: worker 0 takes the sentinel, worker 1 the job `42`. -/
theorem scenario_B_sentinel_then_job_witness :
    (ThreadPool.construct 2 : ThreadPool Int).run
        [PoolAction.process 0, PoolAction.take 0, PoolAction.process 42, PoolAction.take 1,
         PoolAction.handle 0, PoolAction.joinStop, PoolAction.joinThread, PoolAction.handle 1,
         PoolAction.take 1, PoolAction.joinThread, PoolAction.joinThread] =
      some { job_queue := []
             worker_threads := [⟨WorkerState.terminated ExitPath.sentinel, false⟩,
                                ⟨WorkerState.terminated ExitPath.shutdown, false⟩]
             stop := true
             join_call := JoinCall.returned
             submitted := [0, 42]
             removed := [(0, 0), (1, 42)]
             processed := [(1, 42)] } ∧
    (11 : Nat) ≤ 14 :=
  ⟨by decide,
   (scenario_B_sentinel_then_job
      [PoolAction.process 0, PoolAction.take 0, PoolAction.process 42, PoolAction.take 1,
       PoolAction.handle 0, PoolAction.joinStop, PoolAction.joinThread, PoolAction.handle 1,
       PoolAction.take 1, PoolAction.joinThread, PoolAction.joinThread]
      { job_queue := []
        worker_threads := [⟨WorkerState.terminated ExitPath.sentinel, false⟩,
                           ⟨WorkerState.terminated ExitPath.shutdown, false⟩]
        stop := true
        join_call := JoinCall.returned
        submitted := [0, 42]
        removed := [(0, 0), (1, 42)]
        processed := [(1, 42)] }
      (by decide) (by decide)).2.2⟩

end ScenarioB

section ScenarioA

variable {JobT : Type}

/-- The cost of the calls of a schedule without `join`: 4 for each job. -/
theorem callCost_submissions (N : Nat) {l : List (PoolAction JobT)}
    (h : ∀ a ∈ l, a ≠ PoolAction.joinStop) :
    (l.map (callCost N)).sum = 4 * (submissions l).length := by
  induction l with
  | nil => rfl
  | cons a rest ih =>
    have hrest := ih (fun b hb => h b (List.mem_cons_of_mem _ hb))
    cases a with
    | process job =>
      simp only [List.map_cons, List.sum_cons, callCost, submissions, List.length_cons, hrest]
      omega
    | joinStop => exact absurd rfl (h _ (List.mem_cons_self _ _))
    | joinThread => simpa [callCost, submissions] using hrest
    | take i => simpa [callCost, submissions] using hrest
    | handle i => simpa [callCost, submissions] using hrest

/-- C2 (scenario A, generalised). Take a pool of `N ≥ 1` workers and any
schedule in which the client submits jobs, none of them falsy, then calls
`join`, and calls nothing after that; the steps of the workers and of the
loop of `join` are interleaved in any way. In every state of such a schedule
in which all workers have terminated, the queue is empty and the jobs passed
to `worker_fn` are, as a multiset, the jobs submitted. All workers have
terminated once `join` has returned; as long as it has not, some step of a
worker or of the loop of `join` is enabled; and the length of the schedule is
bounded: every interleaving runs on to a state in which all workers have
terminated. -/
theorem all_jobs_processed_once [JobValue JobT]
    (N : Nat) (hN : 1 ≤ N) (pre post : List (PoolAction JobT))
    (p : ThreadPool JobT) (hpre : ∀ a ∈ pre, a ≠ PoolAction.joinStop)
    (hpost : ∀ a ∈ post, ¬ PoolAction.isCall a = true)
    (hjobs : ∀ job ∈ submissions pre, JobValue.falsy job = false)
    (h : (ThreadPool.construct N : ThreadPool JobT).run (pre ++ PoolAction.joinStop :: post) =
      some p) :
    (allTerminated p → p.job_queue = [] ∧ List.Perm p.processedJobs (submissions pre)) ∧
    (p.join_call = JoinCall.returned → allTerminated p) ∧
    (p.join_call ≠ JoinCall.returned →
      ∃ a q, PoolAction.isCall a = false ∧ p.step a = some q) ∧
    (pre ++ PoolAction.joinStop :: post).length ≤
      2 * N + 2 + 4 * (submissions pre).length := by
  obtain ⟨hpost₁, hpost₂⟩ := not_call_of_filter hpost
  obtain ⟨hinv, hd, hsub⟩ := drained_run hpre hpost₂ h
  obtain ⟨hfirst, hcalled⟩ := firstJoin_run hpre hpost₁ h
  refine ⟨fun hterm => ?_, fun hr => (returned_all_terminated hinv hr).2.1, fun hnr => ?_, ?_⟩
  · obtain ⟨hacc, hempty⟩ := terminated_accounting hinv hterm
    rw [hsub] at hacc hempty
    have hwork : (submissions pre).filter isWork = submissions pre :=
      List.filter_eq_self.mpr (fun job hj => by simp [isWork, hjobs job hj])
    have hfalsy : (submissions pre).filter JobValue.falsy = [] :=
      List.filter_eq_nil_iff.mpr (fun job hj => by simp [hjobs job hj])
    have hq := hempty hd (by rw [hfalsy]; exact hN)
    refine ⟨hq, ?_⟩
    rw [hq, hwork] at hacc
    simpa using hacc.symm
  · rcases hfirst with hf | hret
    · exact join_progress hinv hf hcalled
    · exact absurd hret hnr
  · have hlen := stepsLeft_run h
    have hcost : ((pre ++ PoolAction.joinStop :: post).map (callCost N)).sum =
        4 * (submissions pre).length + (N + 2) := by
      rw [List.map_append, List.sum_append, callCost_submissions N hpre, List.map_cons,
        List.sum_cons, callCost_submissions N hpost₁, submissions_eq_nil hpost₂]
      simp [callCost]
    rw [stepsLeft_construct] at hlen
    simp only [ThreadPool.construct, List.length_replicate] at hlen
    rw [hcost] at hlen
    omega

/-- Witness of C2: two workers, the jobs `1`, `2`, `3`. -/
theorem all_jobs_processed_once_witness :
    (ThreadPool.construct 2 : ThreadPool Int).run
        ([PoolAction.process 1, PoolAction.process 2, PoolAction.take 1, PoolAction.take 0,
          PoolAction.process 3, PoolAction.handle 0] ++
         PoolAction.joinStop ::
          [PoolAction.take 0, PoolAction.handle 1, PoolAction.take 1, PoolAction.handle 0,
           PoolAction.take 0]) =
      some { job_queue := []
             worker_threads := [⟨WorkerState.terminated ExitPath.shutdown, true⟩,
                                ⟨WorkerState.terminated ExitPath.shutdown, true⟩]
             stop := true
             join_call := JoinCall.inLoop 0
             submitted := [1, 2, 3]
             removed := [(1, 1), (0, 2), (0, 3)]
             processed := [(0, 2), (1, 1), (0, 3)] } ∧
    List.Perm ([2, 1, 3] : List Int) [1, 2, 3] :=
  ⟨by decide,
   ((@all_jobs_processed_once Int _ 2 (by decide)
      [PoolAction.process 1, PoolAction.process 2, PoolAction.take 1, PoolAction.take 0,
       PoolAction.process 3, PoolAction.handle 0]
      [PoolAction.take 0, PoolAction.handle 1, PoolAction.take 1, PoolAction.handle 0,
       PoolAction.take 0]
      { job_queue := []
        worker_threads := [⟨WorkerState.terminated ExitPath.shutdown, true⟩,
                           ⟨WorkerState.terminated ExitPath.shutdown, true⟩]
        stop := true
        join_call := JoinCall.inLoop 0
        submitted := [1, 2, 3]
        removed := [(1, 1), (0, 2), (0, 3)]
        processed := [(0, 2), (1, 1), (0, 3)] }
      (by decide) (by decide) (by decide) (by decide)).1
      (fun t ht => by
        simp only [List.mem_cons, List.mem_singleton, List.not_mem_nil, or_false] at ht
        rcases ht with h | h <;> exact ⟨ExitPath.shutdown, by rw [h]⟩)).2⟩

end ScenarioA
